import Mathlib

/-!
Verification of the jsonschemacodegen Schema Resolution Engine specification.

The core resolution engine (reference resolver, combinator merger, type
mapper, schema processor) is shipped as the package `jsonschemacodegen.core`,
whose sources are not part of this tree; only its callers (the CLI in
`jsonschemacodegen/__main__.py`, the demo driver `main.py`) and its package
declarations are available.  The engine is therefore modelled from the
specification (spec.md §3–§4, §7), faithful to its words; the CLI entry
points are translated directly from `jsonschemacodegen/__main__.py`.

Modelling notes (simplifications that no settled claim depends on):
* JSON numbers are integers (`Int`); floating point is out of scope.
* External `$ref`s are modelled with the loader omitted, so they fail with
  `unresolvableExternalReference`, as spec.md §6 prescribes for an absent
  loader.
* JSON-pointer `~0`/`~1` escaping and percent-encoding are not modelled.
* Numeric disambiguation suffixes on synthesized-name collision are not
  modelled; names are the pure path-derived form of spec.md §4.1.
* `allOf` members are merged at the descriptor level (the recursive merge
  rule of spec.md §4.2 applied after mapping each member), with circular
  members kept as `NamedRef` leaves exactly as §4.2 requires.
-/

/-- The generic decoded JSON value model of spec.md §6: object / array /
string / number / boolean / null.  Numbers are modelled as integers. -/
inductive Json where
  | null
  | bool (b : Bool)
  | num (n : Int)
  | str (s : String)
  | arr (xs : List Json)
  | obj (fields : List (String × Json))

/-- First-match lookup of a key in a decoded JSON object's field list. -/
def jsonLookup : List (String × Json) → String → Option Json
  | [], _ => none
  | (k, v) :: rest, key => if k = key then some v else jsonLookup rest key

mutual
/-- Structural size of a JSON value (used for fuel bounds and measures). -/
def jsize : Json → Nat
  | .null | .bool _ | .num _ | .str _ => 1
  | .arr xs => 1 + jsizeArr xs
  | .obj fs => 1 + jsizeObj fs

/-- Structural size of a JSON array payload. -/
def jsizeArr : List Json → Nat
  | [] => 0
  | x :: xs => 1 + jsize x + jsizeArr xs

/-- Structural size of a JSON object payload. -/
def jsizeObj : List (String × Json) → Nat
  | [] => 0
  | f :: fs => 1 + jsize f.2 + jsizeObj fs
end

/-- A JSON-pointer path from the document root (spec.md §3 `SchemaNode.location`). -/
abbrev Ptr := List String

/-- Renders a pointer back to its `#/a/b` fragment form, used in diagnostics. -/
def ptrToString (p : Ptr) : String :=
  p.foldl (fun acc s => acc ++ "/" ++ s) "#"

/-- Canonical array indexing for JSON-pointer traversal: the segment must be
the canonical decimal representation of the index (RFC 6901 forbids leading
zeros). -/
def arrIndex (s : String) : List Json → Nat → Option Json
  | [], _ => none
  | x :: xs, i => if Nat.repr i = s then some x else arrIndex s xs (i + 1)

/-- JSON-pointer traversal of a document (spec.md §4.1): descends objects by
key and arrays by canonical index; scalars are not addressable. -/
def resolvePointer : Json → Ptr → Option Json
  | j, [] => some j
  | .obj fields, s :: rest =>
    match jsonLookup fields s with
    | some v => resolvePointer v rest
    | none => none
  | .arr xs, s :: rest =>
    match arrIndex s xs 0 with
    | some v => resolvePointer v rest
    | none => none
  | _, _ :: _ => none

/-- The target of a `$ref` string: a local JSON-pointer fragment or an
external URI (spec.md §4.1). -/
inductive RefTarget where
  | localPtr (p : Ptr)
  | external (uri : String)

/-- Splits the character list of a fragment body at `/` separators. -/
def splitSegs : List Char → List Char → Ptr
  | [], acc => [String.mk acc.reverse]
  | '/' :: rest, acc => String.mk acc.reverse :: splitSegs rest []
  | c :: rest, acc => splitSegs rest (c :: acc)

/-- Parses a `$ref` string: `#` is the document root, `#/...` a local
JSON-pointer fragment, anything else an external URI reference. -/
def parseRef (r : String) : RefTarget :=
  match r.data with
  | ['#'] => .localPtr []
  | '#' :: '/' :: rest => .localPtr (splitSegs rest [])
  | _ => .external r

/-- Modelled from the spec (§4.1 Determinism): the synthesized name for a
location is computed purely from its JSON-pointer path — a `definitions` or
`$defs` entry is named by its key, the root by the caller-supplied root
name, and an anonymous nested location by joining its path segments. -/
def synthesizedName (rootName : String) : Ptr → String
  | [] => rootName
  | ["definitions", k] => k
  | ["$defs", k] => k
  | p => String.intercalate "_" p

mutual
/-- All pointers that address a node of the given document; the enumeration
witnesses that only finitely many pointers resolve. -/
def allPtrs : Json → List Ptr
  | .null | .bool _ | .num _ | .str _ => [[]]
  | .arr xs => [] :: allPtrsArr xs 0
  | .obj fs => [] :: allPtrsObj fs

/-- Pointers into an array payload, with the running canonical index. -/
def allPtrsArr : List Json → Nat → List Ptr
  | [], _ => []
  | x :: xs, i => (allPtrs x).map (Nat.repr i :: ·) ++ allPtrsArr xs (i + 1)

/-- Pointers into an object payload. -/
def allPtrsObj : List (String × Json) → List Ptr
  | [] => []
  | (k, v) :: fs => (allPtrs v).map (k :: ·) ++ allPtrsObj fs
end

/-- The canonical primitive kinds of spec.md §4.3's mapping table, plus the
open `any` kind for fully unconstrained schemas. -/
inductive PrimKind where
  | string | integer | number | boolean | null | any
  deriving DecidableEq

/-- The constraint set a mapper attaches to a descriptor (spec.md §4.3):
pattern/length/format for strings, ranges for numerics, item bounds and
uniqueness for arrays. -/
structure Constraints where
  pattern : Option String := none
  format : Option String := none
  minLength : Option Nat := none
  maxLength : Option Nat := none
  minimum : Option Int := none
  maximum : Option Int := none
  minItems : Option Nat := none
  maxItems : Option Nat := none
  uniqueItems : Bool := false
  deriving DecidableEq

/-- Modelled from the spec (§3 TypeDescriptor): the canonical output unit, a
tagged variant over primitives, objects (fields are name × required ×
optional × type), arrays, enums, unions, and named references into the
definition table.  Cycles are representable only through `namedRef`. -/
inductive TypeDescriptor where
  | primitive (kind : PrimKind) (cs : Constraints)
  | objectType (fields : List (String × Bool × Bool × TypeDescriptor)) (openProps : Bool)
  | arrayType (item : TypeDescriptor) (cs : Constraints)
  | enumType (literals : List Json)
  | unionType (branches : List TypeDescriptor)
  | namedRef (name : String)

/-- An object field: name, required flag, optional (nullable) flag, type. -/
abbrev FieldT := String × Bool × Bool × TypeDescriptor

mutual
/-- Structural size of a type descriptor (drives the merge fuel). -/
def tdSize : TypeDescriptor → Nat
  | .primitive _ _ | .enumType _ | .namedRef _ => 1
  | .objectType fs _ => 1 + tdFieldsSize fs
  | .arrayType i _ => 1 + tdSize i
  | .unionType bs => 1 + tdListSize bs

/-- Structural size of a field list. -/
def tdFieldsSize : List FieldT → Nat
  | [] => 0
  | f :: fs => 1 + tdSize f.2.2.2 + tdFieldsSize fs

/-- Structural size of a descriptor list. -/
def tdListSize : List TypeDescriptor → Nat
  | [] => 0
  | b :: bs => 1 + tdSize b + tdListSize bs
end

/-- Modelled from the spec (§7 error taxonomy): the four terminal resolution
errors.  `outOfFuel` is the marker of the fuel-based embedding; the
termination theorem shows `process` never returns it. -/
inductive GenError where
  | brokenReference (path : String)
  | unresolvableExternalReference (ref : String)
  | schemaConflict (keyword : String) (loc1 loc2 : String)
  | ambiguousEnumType (loc : String)
  | outOfFuel
  deriving DecidableEq

/-- Sequencing of fallible resolution steps: the first error short-circuits
the whole pass (spec.md §7). -/
def bindE {α β : Type} (x : Except GenError α) (f : α → Except GenError β) :
    Except GenError β :=
  match x with
  | .error e => .error e
  | .ok v => f v

@[simp]
theorem bindE_ok {α β : Type} (v : α) (f : α → Except GenError β) :
    bindE (.ok v) f = f v := rfl

@[simp]
theorem bindE_error {α β : Type} (e : GenError) (f : α → Except GenError β) :
    bindE (.error e) f = .error e := rfl

/-- A sequenced step avoids a given error when both halves avoid it. -/
theorem bindE_ne_error {α β : Type} {x : Except GenError α} {f : α → Except GenError β}
    {e0 : GenError} (hx : x ≠ .error e0) (hf : ∀ v, x = .ok v → f v ≠ .error e0) :
    bindE x f ≠ .error e0 := by
  cases x with
  | error e => simpa using hx
  | ok v => exact hf v rfl

/-- A sequenced success factors through both halves. -/
theorem bindE_eq_ok {α β : Type} {x : Except GenError α} {f : α → Except GenError β} {y : β}
    (h : bindE x f = .ok y) : ∃ v, x = .ok v ∧ f v = .ok y := by
  cases x with
  | error e => exact absurd h (by simp)
  | ok v => exact ⟨v, rfl, h⟩

/-- Tightest lower bound of two optional minimums (spec.md §4.2: max of
minimums). -/
def optMaxN : Option Nat → Option Nat → Option Nat
  | some a, some b => some (max a b)
  | some a, none => some a
  | none, b => b

/-- Tightest upper bound of two optional maximums (spec.md §4.2: min of
maximums). -/
def optMinN : Option Nat → Option Nat → Option Nat
  | some a, some b => some (min a b)
  | some a, none => some a
  | none, b => b

/-- Integer variant of `optMaxN`. -/
def optMaxI : Option Int → Option Int → Option Int
  | some a, some b => some (max a b)
  | some a, none => some a
  | none, b => b

/-- Integer variant of `optMinN`. -/
def optMinI : Option Int → Option Int → Option Int
  | some a, some b => some (min a b)
  | some a, none => some a
  | none, b => b

/-- Merge of a single-valued string constraint (spec.md §4.2): present with
different values across members is a conflict naming both locations. -/
def mergeSingleS (kw l1 l2 : String) : Option String → Option String → Except GenError (Option String)
  | some a, some b => if a = b then .ok (some a) else .error (.schemaConflict kw l1 l2)
  | some a, none => .ok (some a)
  | none, b => .ok b

/-- Modelled from the spec (§4.2 allOf merge rule): constraint sets are
unioned, range constraints take the tightest bound, and single-valued
constraints (`format`, `pattern`) conflict when set differently. -/
def mergeCons (l1 l2 : String) (c1 c2 : Constraints) : Except GenError Constraints :=
  bindE (mergeSingleS "format" l1 l2 c1.format c2.format) (fun fmt =>
  bindE (mergeSingleS "pattern" l1 l2 c1.pattern c2.pattern) (fun pat =>
      .ok { pattern := pat, format := fmt,
            minLength := optMaxN c1.minLength c2.minLength,
            maxLength := optMinN c1.maxLength c2.maxLength,
            minimum := optMaxI c1.minimum c2.minimum,
            maximum := optMinI c1.maximum c2.maximum,
            minItems := optMaxN c1.minItems c2.minItems,
            maxItems := optMinN c1.maxItems c2.maxItems,
            uniqueItems := c1.uniqueItems || c2.uniqueItems }))

/-- First field with the given name in a field list. -/
def lookupFieldT : List FieldT → String → Option FieldT
  | [], _ => none
  | f :: rest, n => if f.1 = n then some f else lookupFieldT rest n

/-- Removes every field with the given name. -/
def removeFieldT (fs : List FieldT) (n : String) : List FieldT :=
  fs.filter (fun f => f.1 ≠ n)

mutual
/-- Modelled from the spec (§4.2): the structural `allOf` merge of two
canonical descriptors.  A single-valued `type` mismatch is a
`schemaConflict` naming both contributing locations; range constraints take
the tightest bound; object members contribute their property maps into one
combined map, a property present in both being merged recursively by the
same rule with `required` flags unioned.  The open `any` primitive (an
empty schema) is neutral.  Fuel-based; callers supply fuel exceeding
`tdSize` of the first argument. -/
def mergeDescF : Nat → String → String → TypeDescriptor → TypeDescriptor → Except GenError TypeDescriptor
  | 0, _, _, _, _ => .error .outOfFuel
  | _+1, l1, l2, .primitive k1 c1, .primitive k2 c2 =>
    if k1 = .any ∨ k2 = .any ∨ k1 = k2 then
      bindE (mergeCons l1 l2 c1 c2) (fun c =>
        .ok (.primitive (if k1 = .any then k2 else k1) c))
    else .error (.schemaConflict "type" l1 l2)
  | fuel+1, l1, l2, .objectType f1 o1, .objectType f2 o2 =>
    bindE (mergeFieldsF fuel l1 l2 f1 f2) (fun fs => .ok (.objectType fs (o1 && o2)))
  | fuel+1, l1, l2, .arrayType i1 c1, .arrayType i2 c2 =>
    bindE (mergeDescF fuel l1 l2 i1 i2) (fun i =>
    bindE (mergeCons l1 l2 c1 c2) (fun c => .ok (.arrayType i c)))
  | _+1, l1, l2, .namedRef n1, .namedRef n2 =>
    if n1 = n2 then .ok (.namedRef n1) else .error (.schemaConflict "$ref" l1 l2)
  | _+1, l1, l2, .enumType _, .enumType _ => .error (.schemaConflict "enum" l1 l2)
  | _+1, l1, l2, .unionType _, .unionType _ => .error (.schemaConflict "allOf" l1 l2)
  | _+1, l1, l2, .primitive k1 c1, d2 =>
    if k1 = .any ∧ c1 = ({} : Constraints) then .ok d2
    else .error (.schemaConflict "type" l1 l2)
  | _+1, l1, l2, d1, .primitive k2 c2 =>
    if k2 = .any ∧ c2 = ({} : Constraints) then .ok d1
    else .error (.schemaConflict "type" l1 l2)
  | _+1, l1, l2, _, _ => .error (.schemaConflict "type" l1 l2)

/-- Merges the first field list into the second: fields private to either
side are kept, a shared name merges the two field types recursively, with
`required` unioned (spec.md §4.2) and optionality intersected. -/
def mergeFieldsF : Nat → String → String → List FieldT → List FieldT → Except GenError (List FieldT)
  | 0, _, _, _, _ => .error .outOfFuel
  | _+1, _, _, [], f2 => .ok f2
  | fuel+1, l1, l2, f :: rest, f2 =>
    match lookupFieldT f2 f.1 with
    | none => bindE (mergeFieldsF fuel l1 l2 rest f2) (fun fs => .ok (f :: fs))
    | some g =>
      bindE (mergeDescF fuel l1 l2 f.2.2.2 g.2.2.2) (fun t =>
      bindE (mergeFieldsF fuel l1 l2 rest (removeFieldT f2 f.1)) (fun fs =>
        .ok ((f.1, f.2.1 || g.2.1, f.2.2.1 && g.2.2.1, t) :: fs)))
end

/-- Whether a descriptor is the empty schema's neutral element: the open
`any` primitive with no constraints. -/
def isNeutral (d : TypeDescriptor) : Bool :=
  match d with
  | .primitive .any c => c = ({} : Constraints)
  | _ => false

/-- Folds the `allOf` member contributions into the accumulated descriptor,
tracking which location contributed the accumulated content so a later
conflict names both contributing locations (spec.md §4.2). -/
def foldMerge : String × TypeDescriptor → List (String × TypeDescriptor) → Except GenError TypeDescriptor
  | acc, [] => .ok acc.2
  | acc, (ml, md) :: rest =>
    bindE (mergeDescF (tdSize acc.2 + 1) acc.1 ml acc.2 md) (fun d =>
      foldMerge (if isNeutral acc.2 then ml else acc.1, d) rest)

/-- String value of a keyword, if present with a string value. -/
def getStr (fields : List (String × Json)) (k : String) : Option String :=
  match jsonLookup fields k with
  | some (.str s) => some s
  | _ => none

/-- Integer value of a keyword, if present with a numeric value. -/
def getIntVal (fields : List (String × Json)) (k : String) : Option Int :=
  match jsonLookup fields k with
  | some (.num n) => some n
  | _ => none

/-- Natural-number value of a keyword, if present and non-negative. -/
def getNatVal (fields : List (String × Json)) (k : String) : Option Nat :=
  match jsonLookup fields k with
  | some (.num n) => if 0 ≤ n then some n.toNat else none
  | _ => none

/-- Boolean value of a keyword, defaulting to false. -/
def getBool (fields : List (String × Json)) (k : String) : Bool :=
  match jsonLookup fields k with
  | some (.bool b) => b
  | _ => false

/-- The constraint set the mapper attaches from a node's own keywords
(spec.md §4.3). -/
def constraintsOf (fields : List (String × Json)) : Constraints :=
  { pattern := getStr fields "pattern",
    format := getStr fields "format",
    minLength := getNatVal fields "minLength",
    maxLength := getNatVal fields "maxLength",
    minimum := getIntVal fields "minimum",
    maximum := getIntVal fields "maximum",
    minItems := getNatVal fields "minItems",
    maxItems := getNatVal fields "maxItems",
    uniqueItems := getBool fields "uniqueItems" }

/-- String elements of a JSON array (used for `required`). -/
def stringsOf : List Json → List String
  | [] => []
  | .str s :: rest => s :: stringsOf rest
  | _ :: rest => stringsOf rest

/-- The node's `required` list (spec.md §4.3). -/
def requiredOf (fields : List (String × Json)) : List String :=
  match jsonLookup fields "required" with
  | some (.arr xs) => stringsOf xs
  | _ => []

/-- The node's `properties` map payload. -/
def propsOf (fields : List (String × Json)) : List (String × Json) :=
  match jsonLookup fields "properties" with
  | some (.obj pf) => pf
  | _ => []

/-- `additionalProperties` as the explicit open/closed flag of spec.md §4.3:
closed only when set to literal false. -/
def additionalOpenOf (fields : List (String × Json)) : Bool :=
  match jsonLookup fields "additionalProperties" with
  | some (.bool false) => false
  | _ => true

/-- The node's `allOf` member list, when present. -/
def allOfOf (fields : List (String × Json)) : List Json :=
  match jsonLookup fields "allOf" with
  | some (.arr ms) => ms
  | _ => []

/-- The node's alternative branches: `anyOf` else `oneOf`, in member order
(spec.md §4.2 preserves branch order). -/
def branchesOf (fields : List (String × Json)) : Option (String × List Json) :=
  match jsonLookup fields "anyOf" with
  | some (.arr ms) => some ("anyOf", ms)
  | _ =>
    match jsonLookup fields "oneOf" with
    | some (.arr ms) => some ("oneOf", ms)
    | _ => none

/-- The effective `type` keyword, inferred when absent (spec.md §4.3): a
node with `properties` is an object, one with `items` an array. -/
def inferredType (fields : List (String × Json)) : Option String :=
  match getStr fields "type" with
  | some t => some t
  | none =>
    if (jsonLookup fields "properties").isSome then some "object"
    else if (jsonLookup fields "items").isSome then some "array"
    else none

/-- Constructor tag of a JSON literal, for enum kind inference. -/
def kindTag : Json → Nat
  | .null => 0
  | .bool _ => 1
  | .num _ => 2
  | .str _ => 3
  | .arr _ => 4
  | .obj _ => 5

/-- Auxiliary: all listed literals carry the given kind tag. -/
def sameKindAux (t : Nat) : List Json → Bool
  | [] => true
  | x :: rest => kindTag x = t && sameKindAux t rest

/-- Whether all enum literals share one JSON value kind (spec.md §4.3:
mixing incompatible kinds is ambiguous). -/
def allSameKind : List Json → Bool
  | [] => true
  | x :: rest => sameKindAux (kindTag x) rest

/-- Whether a descriptor is the `null` primitive. -/
def isNullPrim : TypeDescriptor → Bool
  | .primitive .null _ => true
  | _ => false

/-- Modelled from the spec (§4.3): when exactly one union branch resolves to
the `null` primitive and the others are non-null, the union collapses to
the non-null content with an "optional" marker for the surrounding field;
otherwise the descriptor is unchanged and the field is not optional. -/
def collapseNullable (d : TypeDescriptor) : TypeDescriptor × Bool :=
  match d with
  | .unionType bs =>
    let nn := bs.filter (fun b => !(isNullPrim b))
    if bs.length = nn.length + 1 then
      match nn with
      | [] => (.unionType bs, false)
      | [d1] => (d1, true)
      | _ => (.unionType nn, true)
    else (.unionType bs, false)
  | d => (d, false)

/-- The definition table: synthesized name to descriptor (spec.md §3
TypeGraph). -/
abbrev Defs := List (String × TypeDescriptor)

/-- Whether a name is already materialized in the definition table. -/
def defsContains : Defs → String → Bool
  | [], _ => false
  | (m, _) :: rest, n => if m = n then true else defsContains rest n

/-- Looks up a materialized descriptor by name. -/
def defsFind : Defs → String → Option TypeDescriptor
  | [], _ => none
  | (m, d) :: rest, n => if m = n then some d else defsFind rest n

/-- The node's `$ref` keyword, when present with a string value. -/
def refOf (fields : List (String × Json)) : Option String :=
  match jsonLookup fields "$ref" with
  | some (.str r) => some r
  | _ => none

/-- The node's `enum` keyword, when present with an array value. -/
def enumOf (fields : List (String × Json)) : Option (List Json) :=
  match jsonLookup fields "enum" with
  | some (.arr lits) => some lits
  | _ => none

/-- The contribution of a walked `allOf` member (spec.md §4.2): a member
that resolved to a named reference is inlined from the definition table
when already materialized and kept as a `NamedRef` leaf when circular. -/
def memberContrib (d : TypeDescriptor) (defs : Defs) : TypeDescriptor :=
  match d with
  | .namedRef n =>
    match defsFind defs n with
    | some dd => dd
    | none => .namedRef n
  | d1 => d1

mutual
/-- Modelled from the spec (§4.1–§4.4, engine sources absent from the tree):
the resolution walk of one node.  A `$ref` node resolves its target —
external refs fail for want of a loader, broken local refs raise
`brokenReference` naming the path; a target already on the in-progress
stack yields a `namedRef` placeholder (cycle handling, §4.1); a target
already materialized is not revisited (memoization, §4.4); otherwise the
target is walked with its pointer pushed and the result is entered into
the definition table under the path-derived synthesized name.  A non-ref
node maps its `allOf` members, maps itself, and merges the contributions
(§4.2). -/
def walkF (doc : Json) (rootName : String) :
    Nat → List Ptr → Defs → String → Json → Except GenError (TypeDescriptor × Defs)
  | 0, _, _, _, _ => .error .outOfFuel
  | fuel+1, stack, defs, loc, node =>
    match node with
    | .obj fields =>
      match refOf fields with
      | some r =>
        match parseRef r with
        | .external uri => .error (.unresolvableExternalReference uri)
        | .localPtr p =>
          match resolvePointer doc p with
          | none => .error (.brokenReference (ptrToString p))
          | some target =>
            let n := synthesizedName rootName p
            if p ∈ stack then .ok (.namedRef n, defs)
            else if defsContains defs n then .ok (.namedRef n, defs)
            else
              bindE (walkF doc rootName fuel (p :: stack) defs (ptrToString p) target)
                (fun r => .ok (.namedRef n, (n, r.1) :: r.2))
      | none =>
        bindE (walkMembersF doc rootName fuel stack defs loc 0 (allOfOf fields)) (fun rc =>
        bindE (mapSelfF doc rootName fuel stack rc.2 loc fields) (fun rs =>
        bindE (foldMerge (loc, rs.1) rc.1) (fun d => .ok (d, rs.2))))
    | _ => .ok (.primitive .any {}, defs)

/-- Modelled from the spec (§4.3 mapping table): maps a node's own keywords
to a descriptor, recursing into `items`, `properties` and union branches.
A missing `type` with only an `enum` maps to `enumType` when the literals
share a kind and raises `ambiguousEnumType` otherwise; a fully empty
schema maps to the open `any` primitive. -/
def mapSelfF (doc : Json) (rootName : String) :
    Nat → List Ptr → Defs → String → List (String × Json) → Except GenError (TypeDescriptor × Defs)
  | 0, _, _, _, _ => .error .outOfFuel
  | fuel+1, stack, defs, loc, fields =>
    match inferredType fields with
    | some "string" => .ok (.primitive .string (constraintsOf fields), defs)
    | some "integer" => .ok (.primitive .integer (constraintsOf fields), defs)
    | some "number" => .ok (.primitive .number (constraintsOf fields), defs)
    | some "boolean" => .ok (.primitive .boolean (constraintsOf fields), defs)
    | some "null" => .ok (.primitive .null (constraintsOf fields), defs)
    | some "array" =>
      match jsonLookup fields "items" with
      | some j =>
        bindE (walkF doc rootName fuel stack defs (loc ++ "/items") j) (fun r =>
          .ok (.arrayType r.1 (constraintsOf fields), r.2))
      | none => .ok (.arrayType (.primitive .any {}) (constraintsOf fields), defs)
    | some "object" =>
      bindE (walkFieldsF doc rootName fuel stack defs loc (requiredOf fields) (propsOf fields))
        (fun r => .ok (.objectType r.1 (additionalOpenOf fields), r.2))
    | some _ => .ok (.primitive .any (constraintsOf fields), defs)
    | none =>
      match enumOf fields with
      | some lits =>
        if allSameKind lits then .ok (.enumType lits, defs)
        else .error (.ambiguousEnumType loc)
      | none =>
        match branchesOf fields with
        | some (kw, ms) =>
          bindE (walkBranchesF doc rootName fuel stack defs loc kw 0 ms) (fun r =>
            .ok (.unionType r.1, r.2))
        | none => .ok (.primitive .any (constraintsOf fields), defs)

/-- Walks the `allOf` member list (spec.md §4.2): each member is walked as a
node; a member that resolved to a named reference is inlined from the
definition table when already materialized and kept as a `namedRef` leaf
when circular. -/
def walkMembersF (doc : Json) (rootName : String) :
    Nat → List Ptr → Defs → String → Nat → List Json →
    Except GenError (List (String × TypeDescriptor) × Defs)
  | 0, _, _, _, _, _ => .error .outOfFuel
  | _+1, _, defs, _, _, [] => .ok ([], defs)
  | fuel+1, stack, defs, loc, i, m :: rest =>
    bindE (walkF doc rootName fuel stack defs (loc ++ "/allOf/" ++ Nat.repr i) m) (fun r =>
      bindE (walkMembersF doc rootName fuel stack r.2 loc (i + 1) rest) (fun rr =>
        .ok ((loc ++ "/allOf/" ++ Nat.repr i, memberContrib r.1 r.2) :: rr.1, rr.2)))

/-- Walks a `properties` map into object fields: each property is mapped
recursively, required iff listed in `required`, with the nullable-union
collapse of spec.md §4.3 applied to the field. -/
def walkFieldsF (doc : Json) (rootName : String) :
    Nat → List Ptr → Defs → String → List String → List (String × Json) →
    Except GenError (List FieldT × Defs)
  | 0, _, _, _, _, _ => .error .outOfFuel
  | _+1, _, defs, _, _, [] => .ok ([], defs)
  | fuel+1, stack, defs, loc, req, (pname, pschema) :: rest =>
    bindE (walkF doc rootName fuel stack defs (loc ++ "/properties/" ++ pname) pschema) (fun r =>
      bindE (walkFieldsF doc rootName fuel stack r.2 loc req rest) (fun rr =>
        .ok ((pname, req.contains pname, (collapseNullable r.1).2, (collapseNullable r.1).1)
          :: rr.1, rr.2)))

/-- Walks `anyOf`/`oneOf` members into union branches, preserving member
order (spec.md §4.2). -/
def walkBranchesF (doc : Json) (rootName : String) :
    Nat → List Ptr → Defs → String → String → Nat → List Json →
    Except GenError (List TypeDescriptor × Defs)
  | 0, _, _, _, _, _, _ => .error .outOfFuel
  | _+1, _, defs, _, _, _, [] => .ok ([], defs)
  | fuel+1, stack, defs, loc, kw, i, m :: rest =>
    bindE (walkF doc rootName fuel stack defs (loc ++ "/" ++ kw ++ "/" ++ Nat.repr i) m) (fun r =>
      bindE (walkBranchesF doc rootName fuel stack r.2 loc kw (i + 1) rest) (fun rr =>
        .ok (r.1 :: rr.1, rr.2)))
end

/-- The `definitions` (or `$defs`) entries of the document root. -/
def defsEntriesOf (doc : Json) (kw : String) : List (String × Json) :=
  match doc with
  | .obj fields =>
    match jsonLookup fields kw with
    | some (.obj dfs) => dfs
    | _ => []
  | _ => []

/-- Modelled from the spec (§4.4): visits every `definitions`/`$defs` entry,
skipping names already materialized (memoization by synthesized name), and
enters each walked result into the definition table under its key. -/
def walkDefsF (doc : Json) (rootName : String) (fuel : Nat) (kw : String) :
    Defs → List (String × Json) → Except GenError Defs
  | defs, [] => .ok defs
  | defs, (k, v) :: rest =>
    let n := synthesizedName rootName [kw, k]
    if defsContains defs n then walkDefsF doc rootName fuel kw defs rest
    else
      bindE (walkF doc rootName fuel [[kw, k]] defs (ptrToString [kw, k]) v) (fun r =>
        walkDefsF doc rootName fuel kw ((n, r.1) :: r.2) rest)

/-- Modelled from the spec (§3): the processor's output — the definition
table (root included under the root name) plus the root descriptor. -/
structure TypeGraph where
  definitions : Defs
  root : TypeDescriptor
  rootName : String

/-- Modelled from the spec (§4.4 `process`): walks the root (with the root
pointer in progress), enters it under the root name, then walks every
`definitions` and `$defs` entry not already materialized. -/
def processF (doc : Json) (rootName : String) (fuel : Nat) : Except GenError TypeGraph :=
  bindE (walkF doc rootName fuel [[]] [] "#" doc) (fun r =>
  bindE (walkDefsF doc rootName fuel "definitions" ((rootName, r.1) :: r.2)
      (defsEntriesOf doc "definitions")) (fun defs3 =>
  bindE (walkDefsF doc rootName fuel "$defs" defs3 (defsEntriesOf doc "$defs")) (fun defs4 =>
    .ok ⟨defs4, r.1, rootName⟩)))

/-- Fuel that the termination theorem proves sufficient for any walk of the
given document. -/
def fuelBound (doc : Json) : Nat := 2 * ((allPtrs doc).length + 2) * (3 * jsize doc + 4)

/-- Modelled from the spec (§4.4): `process(document) -> TypeGraph`, the
orchestrated resolution pass over the whole document. -/
def process (doc : Json) (rootName : String) : Except GenError TypeGraph :=
  processF doc rootName (fuelBound doc)

/-- Renders an optional length/count. -/
def optNatStr : Option Nat → String
  | none => "-"
  | some n => Nat.repr n

/-- Renders an optional integer bound. -/
def optIntStr : Option Int → String
  | none => "-"
  | some i => Int.repr i

/-- Renders an optional string constraint. -/
def optStrStr : Option String → String
  | none => "-"
  | some s => s

/-- Textual form of a primitive kind. -/
def primKindStr : PrimKind → String
  | .string => "string"
  | .integer => "integer"
  | .number => "number"
  | .boolean => "boolean"
  | .null => "null"
  | .any => "any"

/-- Textual form of a constraint set. -/
def serializeCons (c : Constraints) : String :=
  String.intercalate "," [optStrStr c.pattern, optStrStr c.format,
    optNatStr c.minLength, optNatStr c.maxLength, optIntStr c.minimum,
    optIntStr c.maximum, optNatStr c.minItems, optNatStr c.maxItems,
    if c.uniqueItems then "u" else "-"]

mutual
/-- Fuel-based textual dump of a JSON value. -/
def serializeJsonF : Nat → Json → String
  | 0, _ => "!"
  | _+1, .null => "null"
  | _+1, .bool b => if b then "true" else "false"
  | _+1, .num n => Int.repr n
  | _+1, .str s => "'" ++ s ++ "'"
  | fuel+1, .arr xs => "[" ++ serializeJsonArrF fuel xs ++ "]"
  | fuel+1, .obj fs => "(" ++ serializeJsonObjF fuel fs ++ ")"

/-- Fuel-based dump of an array payload. -/
def serializeJsonArrF : Nat → List Json → String
  | 0, _ => "!"
  | _+1, [] => ""
  | fuel+1, x :: xs => serializeJsonF fuel x ++ ";" ++ serializeJsonArrF fuel xs

/-- Fuel-based dump of an object payload. -/
def serializeJsonObjF : Nat → List (String × Json) → String
  | 0, _ => "!"
  | _+1, [] => ""
  | fuel+1, f :: fs => f.1 ++ ":" ++ serializeJsonF fuel f.2 ++ ";" ++ serializeJsonObjF fuel fs
end

mutual
/-- Fuel-based textual dump of a descriptor (a textual serialization of the
`TypeGraph` for the determinism claim; the core mandates no wire format). -/
def serializeTDF : Nat → TypeDescriptor → String
  | 0, _ => "!"
  | _+1, .primitive k c => "prim(" ++ primKindStr k ++ "|" ++ serializeCons c ++ ")"
  | fuel+1, .objectType fs op =>
    "object(" ++ serializeFieldsF fuel fs ++ (if op then "|open" else "|closed") ++ ")"
  | fuel+1, .arrayType i c => "array(" ++ serializeTDF fuel i ++ "|" ++ serializeCons c ++ ")"
  | _+1, .enumType lits => "enum(" ++ serializeJsonArrF (jsizeArr lits + 1) lits ++ ")"
  | fuel+1, .unionType bs => "union(" ++ serializeTDListF fuel bs ++ ")"
  | _+1, .namedRef n => "ref(" ++ n ++ ")"

/-- Fuel-based dump of an object field list. -/
def serializeFieldsF : Nat → List FieldT → String
  | 0, _ => "!"
  | _+1, [] => ""
  | fuel+1, f :: fs =>
    f.1 ++ (if f.2.1 then "!" else "?") ++ (if f.2.2.1 then "~" else "") ++
    serializeTDF fuel f.2.2.2 ++ ";" ++ serializeFieldsF fuel fs

/-- Fuel-based dump of a branch list. -/
def serializeTDListF : Nat → List TypeDescriptor → String
  | 0, _ => "!"
  | _+1, [] => ""
  | fuel+1, b :: bs => serializeTDF fuel b ++ ";" ++ serializeTDListF fuel bs
end

/-- Textual dump of a descriptor with sufficient fuel. -/
def serializeTD (d : TypeDescriptor) : String :=
  serializeTDF (tdSize d + 1) d

/-- Textual dump of a definition table. -/
def serializeDefs : Defs → String
  | [] => ""
  | (n, d) :: rest => n ++ "=" ++ serializeTD d ++ ";" ++ serializeDefs rest

/-- Textual (byte-level) dump of a whole type graph. -/
def serializeGraph (g : TypeGraph) : String :=
  g.rootName ++ ":" ++ serializeTD g.root ++ "|" ++ serializeDefs g.definitions

/-- A validation issue as consumed by `cmd_validate`
(`jsonschemacodegen/__main__.py`, lines 109–116). -/
structure ValidationIssue where
  severity : String
  path : String
  message : String

/-- A validation result: the `is_valid` flag plus issues, as consumed by
`cmd_validate`. -/
structure ValidationResult where
  is_valid : Bool
  issues : List ValidationIssue

/-- Translated from `cmd_validate` (`jsonschemacodegen/__main__.py`,
lines 93–116): with `--data` the data is validated against the schema,
otherwise the schema itself is validated; the exit code is
`0 if result.is_valid else 1`.  The two validator calls are external
collaborators, so their results are parameters. -/
def cmd_validate_exit (dataArg : Bool) (dataResult schemaResult : ValidationResult) : Nat :=
  let result := if dataArg then dataResult else schemaResult
  if result.is_valid then 0 else 1

/-- Translated from `cmd_generate_samples` (`jsonschemacodegen/__main__.py`,
lines 80–83): both arms of the `args.count == 1` conditional serialize the
samples with `json.dumps(samples, indent=2, default=str)`, modelled by the
serializer parameter. -/
def cmd_generate_samples_output (dumps : Json → String) (count : Int) (samples : Json) : String :=
  if count = 1 then dumps samples else dumps samples

/-- Claim instance: a top-level self-referential schema. -/
def topSelfRefDoc : Json := .obj [("$ref", .str "#")]

/-- Claim instance: a `definitions` entry referencing itself directly. -/
def selfRefDefsDoc : Json :=
  .obj [("definitions", .obj [("Node", .obj [("$ref", .str "#/definitions/Node")])])]

/-- Claim instance: two `definitions` entries referencing each other (a
transitive self-reference). -/
def transCycleDoc : Json :=
  .obj [("definitions", .obj
    [("A", .obj [("$ref", .str "#/definitions/B")]),
     ("B", .obj [("$ref", .str "#/definitions/A")])])]

/-- Claim instance: `allOf` with conflicting `type` members. -/
def conflictAllOfDoc : Json :=
  .obj [("allOf", .arr [.obj [("type", .str "string")], .obj [("type", .str "integer")]])]

/-- Claim instance: `allOf` members assigning different `format` values. -/
def formatConflictDoc : Json :=
  .obj [("allOf", .arr
    [.obj [("type", .str "string"), ("format", .str "email")],
     .obj [("type", .str "string"), ("format", .str "uri")]])]

/-- Claim instance: `allOf` merging a minLength with a maxLength. -/
def tightBoundsDoc : Json :=
  .obj [("allOf", .arr
    [.obj [("type", .str "string"), ("minLength", .num 3)],
     .obj [("maxLength", .num 10)]])]

/-- Claim instance: a property whose schema is an `anyOf` of a string
branch and a null branch. -/
def nullableFieldDoc : Json :=
  .obj [("type", .str "object"),
        ("properties", .obj [("name", .obj [("anyOf", .arr
          [.obj [("type", .str "string")], .obj [("type", .str "null")]])])])]

/-- Claim instance: a `$ref` to a missing `definitions` key. -/
def brokenRefDoc : Json := .obj [("$ref", .str "#/definitions/Missing")]

/-- Claim instance: a `$ref` pointing through a scalar. -/
def scalarRefDoc : Json :=
  .obj [("definitions", .obj [("A", .num 5)]), ("$ref", .str "#/definitions/A/x")]

/-- Claim instance: an enum mixing a string and an object literal, nested
inside a property. -/
def mixedEnumDoc : Json :=
  .obj [("type", .str "object"),
        ("properties", .obj [("x", .obj [("enum", .arr [.str "a", .obj []])])])]

/-- Claim instance: two broken refs in walk order. -/
def twoBrokenRefsDoc : Json :=
  .obj [("type", .str "object"),
        ("properties", .obj
          [("a", .obj [("$ref", .str "#/definitions/M1")]),
           ("b", .obj [("$ref", .str "#/definitions/M2")])])]

example : jsize (.obj [("a", .arr [.num 1, .null])]) = 7 := by rfl
example : resolvePointer (.obj [("definitions", .obj [("Node", .num 1)])])
    ["definitions", "Node"] = some (.num 1) := by rfl
example : resolvePointer (.obj [("definitions", .obj [])]) ["definitions", "Missing"] = none := by rfl
example : ptrToString ["definitions", "Missing"] = "#/definitions/Missing" := by rfl
example : parseRef "#" = .localPtr [] := by rfl
example : parseRef "#/definitions/Node" = .localPtr ["definitions", "Node"] := by rfl
example : parseRef "http://example.com/s.json" = .external "http://example.com/s.json" := by rfl
example : synthesizedName "Root" [] = "Root" := by rfl
example : synthesizedName "Root" ["definitions", "Node"] = "Node" := by rfl
example : synthesizedName "Root" ["properties", "a"] = "properties_a" := by rfl
example : allPtrs (.obj [("a", .num 1)]) = [[], ["a"]] := by rfl
example : resolvePointer (.arr [.num 5]) ["0"] = some (.num 5) := by rfl
example : resolvePointer (.arr [.num 5]) ["00"] = none := by rfl

/-- Every document is addressed by the empty pointer. -/
theorem nil_mem_allPtrs (doc : Json) : ([] : Ptr) ∈ allPtrs doc := by
  cases doc <;> simp [allPtrs]

/-- Every JSON value has positive size. -/
theorem jsize_pos (j : Json) : 1 ≤ jsize j := by
  cases j <;> simp [jsize]

/-- A keyword value is structurally smaller than its enclosing object payload. -/
theorem jsonLookup_jsize {l : List (String × Json)} {k : String} {v : Json}
    (h : jsonLookup l k = some v) : jsize v + 1 ≤ jsizeObj l := by
  induction l with
  | nil => simp [jsonLookup] at h
  | cons f rest ih =>
    rcases f with ⟨k1, v1⟩
    simp only [jsonLookup] at h
    by_cases hk : k1 = k
    · rw [if_pos hk] at h
      cases h
      simp [jsizeObj]
      omega
    · rw [if_neg hk] at h
      have := ih h
      simp [jsizeObj]
      omega

/-- An indexed element is structurally smaller than its array payload. -/
theorem arrIndex_jsize {xs : List Json} {s : String} {v : Json} :
    ∀ {i : Nat}, arrIndex s xs i = some v → jsize v + 1 ≤ jsizeArr xs := by
  induction xs with
  | nil => intro i h; simp [arrIndex] at h
  | cons x rest ih =>
    intro i h
    simp only [arrIndex] at h
    by_cases hr : Nat.repr i = s
    · rw [if_pos hr] at h
      cases h
      simp [jsizeArr]
      omega
    · rw [if_neg hr] at h
      have := ih h
      simp [jsizeArr]
      omega

/-- Resolution only reaches nodes no larger than the document. -/
theorem resolvePointer_jsize {p : Ptr} :
    ∀ {j t : Json}, resolvePointer j p = some t → jsize t ≤ jsize j := by
  induction p with
  | nil =>
    intro j t h
    simp only [resolvePointer, Option.some.injEq] at h
    subst h
    exact le_refl _
  | cons s rest ih =>
    intro j t h
    cases j with
    | obj fields =>
      simp only [resolvePointer] at h
      rcases hl : jsonLookup fields s with _ | v <;> rw [hl] at h
      · cases h
      · have h1 := jsonLookup_jsize hl
        have h2 := ih h
        simp [jsize]
        omega
    | arr xs =>
      simp only [resolvePointer] at h
      rcases hl : arrIndex s xs 0 with _ | v <;> rw [hl] at h
      · cases h
      · have h1 := arrIndex_jsize hl
        have h2 := ih h
        simp [jsize]
        omega
    | null => simp [resolvePointer] at h
    | bool b => simp [resolvePointer] at h
    | num n => simp [resolvePointer] at h
    | str s2 => simp [resolvePointer] at h

/-- A resolving object step yields a pointer in the payload enumeration. -/
theorem jsonLookup_mem_allPtrsObj {l : List (String × Json)} {s : String} {v : Json}
    (h : jsonLookup l s = some v) {rest : Ptr} (hrest : rest ∈ allPtrs v) :
    s :: rest ∈ allPtrsObj l := by
  induction l with
  | nil => simp [jsonLookup] at h
  | cons f tail ih =>
    rcases f with ⟨k1, v1⟩
    simp only [jsonLookup] at h
    by_cases hk : k1 = s
    · rw [if_pos hk] at h
      cases h
      subst hk
      simp only [allPtrsObj]
      exact List.mem_append_left _ (List.mem_map_of_mem _ hrest)
    · rw [if_neg hk] at h
      simp only [allPtrsObj]
      exact List.mem_append_right _ (ih h)

/-- A resolving array step yields a pointer in the payload enumeration. -/
theorem arrIndex_mem_allPtrsArr {xs : List Json} {s : String} {v : Json} :
    ∀ {i : Nat}, arrIndex s xs i = some v → ∀ {rest : Ptr}, rest ∈ allPtrs v →
    s :: rest ∈ allPtrsArr xs i := by
  induction xs with
  | nil => intro i h; simp [arrIndex] at h
  | cons x tail ih =>
    intro i h rest hrest
    simp only [arrIndex] at h
    by_cases hr : Nat.repr i = s
    · rw [if_pos hr] at h
      cases h
      subst hr
      simp only [allPtrsArr]
      exact List.mem_append_left _ (List.mem_map_of_mem _ hrest)
    · rw [if_neg hr] at h
      simp only [allPtrsArr]
      exact List.mem_append_right _ (ih h hrest)

/-- Every resolving pointer is in the document's pointer enumeration. -/
theorem resolvePointer_mem_allPtrs {p : Ptr} :
    ∀ {doc t : Json}, resolvePointer doc p = some t → p ∈ allPtrs doc := by
  induction p with
  | nil => intro doc t _; exact nil_mem_allPtrs doc
  | cons s rest ih =>
    intro doc t h
    cases doc with
    | obj fields =>
      simp only [resolvePointer] at h
      rcases hl : jsonLookup fields s with _ | v <;> rw [hl] at h
      · cases h
      · simp only [allPtrs]
        exact List.mem_cons_of_mem _ (jsonLookup_mem_allPtrsObj hl (ih h))
    | arr xs =>
      simp only [resolvePointer] at h
      rcases hl : arrIndex s xs 0 with _ | v <;> rw [hl] at h
      · cases h
      · simp only [allPtrs]
        exact List.mem_cons_of_mem _ (arrIndex_mem_allPtrsArr hl (ih h))
    | null => simp [resolvePointer] at h
    | bool b => simp [resolvePointer] at h
    | num n => simp [resolvePointer] at h
    | str s2 => simp [resolvePointer] at h

/-- The walk's stack discipline: distinct in-progress pointers, all
addressing the document. -/
def StackOk (doc : Json) (stack : List Ptr) : Prop :=
  stack.Nodup ∧ ∀ p ∈ stack, p ∈ allPtrs doc

/-- A well-formed stack never exceeds the number of addressable pointers. -/
theorem stackOk_length {doc : Json} {stack : List Ptr} (h : StackOk doc stack) :
    stack.length ≤ (allPtrs doc).length :=
  (List.subperm_of_subset h.1 h.2).length_le

/-- A key present in an object payload has some first binding. -/
theorem mem_exists_jsonLookup {l : List (String × Json)} {k : String} {v : Json}
    (h : (k, v) ∈ l) : ∃ w, jsonLookup l k = some w := by
  induction l with
  | nil => simp at h
  | cons f tail ih =>
    rcases f with ⟨k1, v1⟩
    simp only [jsonLookup]
    by_cases hk : k1 = k
    · exact ⟨v1, if_pos hk⟩
    · rw [if_neg hk]
      cases h with
      | head => exact absurd rfl hk
      | tail _ h2 => exact ih h2

/-- A value bound in an object payload is structurally smaller than it. -/
theorem mem_jsize_obj {l : List (String × Json)} {k : String} {v : Json}
    (h : (k, v) ∈ l) : jsize v + 1 ≤ jsizeObj l := by
  induction l with
  | nil => simp at h
  | cons f tail ih =>
    cases h with
    | head =>
      simp [jsizeObj]
      omega
    | tail _ h2 =>
      have := ih h2
      simp [jsizeObj]
      omega

/-- The `allOf` payload is no larger than its enclosing object payload. -/
theorem allOfOf_jsize (fields : List (String × Json)) :
    jsizeArr (allOfOf fields) ≤ jsizeObj fields := by
  unfold allOfOf
  rcases h : jsonLookup fields "allOf" with _ | v
  · simp [jsizeArr]
  · cases v with
    | arr xs =>
      have := jsonLookup_jsize h
      simp [jsize] at this
      show jsizeArr xs ≤ jsizeObj fields
      omega
    | null => simp [jsizeArr]
    | bool b => simp [jsizeArr]
    | num n => simp [jsizeArr]
    | str s => simp [jsizeArr]
    | obj fs => simp [jsizeArr]

/-- The `properties` payload is no larger than its enclosing object payload. -/
theorem propsOf_jsize (fields : List (String × Json)) :
    jsizeObj (propsOf fields) ≤ jsizeObj fields := by
  unfold propsOf
  rcases h : jsonLookup fields "properties" with _ | v
  · simp [jsizeObj]
  · cases v with
    | obj pf =>
      have := jsonLookup_jsize h
      simp [jsize] at this
      show jsizeObj pf ≤ jsizeObj fields
      omega
    | null => simp [jsizeObj]
    | bool b => simp [jsizeObj]
    | num n => simp [jsizeObj]
    | str s => simp [jsizeObj]
    | arr xs => simp [jsizeObj]

/-- Union branch payloads are structurally smaller than the object payload. -/
theorem branchesOf_jsize {fields : List (String × Json)} {kw : String} {ms : List Json}
    (h : branchesOf fields = some (kw, ms)) : jsizeArr ms + 2 ≤ jsizeObj fields := by
  unfold branchesOf at h
  rcases h1 : jsonLookup fields "anyOf" with _ | v <;> rw [h1] at h
  · rcases h2 : jsonLookup fields "oneOf" with _ | v <;> rw [h2] at h
    · cases h
    · cases v with
      | arr xs =>
        injection h with h3
        injection h3 with _ h5
        subst h5
        have := jsonLookup_jsize h2
        simp [jsize] at this
        omega
      | null => cases h
      | bool b => cases h
      | num n => cases h
      | str s => cases h
      | obj fs => cases h
  · cases v with
    | arr xs =>
      injection h with h3
      injection h3 with _ h5
      subst h5
      have := jsonLookup_jsize h1
      simp [jsize] at this
      omega
    | null =>
      rcases h2 : jsonLookup fields "oneOf" with _ | w <;> rw [h2] at h
      · cases h
      · cases w with
        | arr xs =>
          injection h with h3
          injection h3 with _ h5
          subst h5
          have := jsonLookup_jsize h2
          simp [jsize] at this
          omega
        | null => cases h
        | bool b => cases h
        | num n => cases h
        | str s => cases h
        | obj fs => cases h
    | bool b =>
      rcases h2 : jsonLookup fields "oneOf" with _ | w <;> rw [h2] at h
      · cases h
      · cases w with
        | arr xs =>
          injection h with h3
          injection h3 with _ h5
          subst h5
          have := jsonLookup_jsize h2
          simp [jsize] at this
          omega
        | null => cases h
        | bool b2 => cases h
        | num n => cases h
        | str s => cases h
        | obj fs => cases h
    | num n =>
      rcases h2 : jsonLookup fields "oneOf" with _ | w <;> rw [h2] at h
      · cases h
      · cases w with
        | arr xs =>
          injection h with h3
          injection h3 with _ h5
          subst h5
          have := jsonLookup_jsize h2
          simp [jsize] at this
          omega
        | null => cases h
        | bool b2 => cases h
        | num n2 => cases h
        | str s => cases h
        | obj fs => cases h
    | str s =>
      rcases h2 : jsonLookup fields "oneOf" with _ | w <;> rw [h2] at h
      · cases h
      · cases w with
        | arr xs =>
          injection h with h3
          injection h3 with _ h5
          subst h5
          have := jsonLookup_jsize h2
          simp [jsize] at this
          omega
        | null => cases h
        | bool b2 => cases h
        | num n2 => cases h
        | str s2 => cases h
        | obj fs => cases h
    | obj fs =>
      rcases h2 : jsonLookup fields "oneOf" with _ | w <;> rw [h2] at h
      · cases h
      · cases w with
        | arr xs =>
          injection h with h3
          injection h3 with _ h5
          subst h5
          have := jsonLookup_jsize h2
          simp [jsize] at this
          omega
        | null => cases h
        | bool b2 => cases h
        | num n2 => cases h
        | str s2 => cases h
        | obj fs2 => cases h

/-- A single-valued keyword merge never reports the fuel marker. -/
theorem mergeSingleS_ne_out (kw l1 l2 : String) (a b : Option String) :
    mergeSingleS kw l1 l2 a b ≠ .error .outOfFuel := by
  cases a <;> cases b <;> simp only [mergeSingleS] <;> (try split) <;> simp

/-- A constraint merge never reports the fuel marker. -/
theorem mergeCons_ne_out (l1 l2 : String) (c1 c2 : Constraints) :
    mergeCons l1 l2 c1 c2 ≠ .error .outOfFuel := by
  unfold mergeCons
  apply bindE_ne_error (mergeSingleS_ne_out _ _ _ _ _)
  intro fmt _
  apply bindE_ne_error (mergeSingleS_ne_out _ _ _ _ _)
  intro pat _
  simp

/-- With fuel exceeding the first argument's size, the descriptor merge
never reports the fuel marker. -/
theorem merge_no_fuel : ∀ fuel : Nat,
    (∀ (l1 l2 : String) (d1 d2 : TypeDescriptor), tdSize d1 < fuel →
      mergeDescF fuel l1 l2 d1 d2 ≠ .error .outOfFuel) ∧
    (∀ (l1 l2 : String) (f1 f2 : List FieldT), tdFieldsSize f1 < fuel →
      mergeFieldsF fuel l1 l2 f1 f2 ≠ .error .outOfFuel) := by
  intro fuel
  induction fuel with
  | zero => exact ⟨fun _ _ _ _ h => absurd h (Nat.not_lt_zero _),
                   fun _ _ _ _ h => absurd h (Nat.not_lt_zero _)⟩
  | succ fuel ih =>
    constructor
    · intro l1 l2 d1 d2 hsz
      cases d1 with
      | primitive k1 c1 =>
        cases d2 with
        | primitive k2 c2 =>
          simp only [mergeDescF]
          split
          · exact bindE_ne_error (mergeCons_ne_out _ _ _ _) (fun c _ => by simp)
          · simp
        | objectType f2 o2 => simp only [mergeDescF]; split <;> simp
        | arrayType i2 cs2 => simp only [mergeDescF]; split <;> simp
        | enumType e2 => simp only [mergeDescF]; split <;> simp
        | unionType b2 => simp only [mergeDescF]; split <;> simp
        | namedRef n2 => simp only [mergeDescF]; split <;> simp
      | objectType f1 o1 =>
        have hlt : tdFieldsSize f1 < fuel := by simp [tdSize] at hsz; omega
        cases d2 with
        | objectType f2 o2 =>
          simp only [mergeDescF]
          exact bindE_ne_error (ih.2 l1 l2 f1 f2 hlt) (fun fs _ => by simp)
        | primitive k2 c2 => simp only [mergeDescF]; split <;> simp
        | arrayType i2 cs2 => simp only [mergeDescF]; simp
        | enumType e2 => simp only [mergeDescF]; simp
        | unionType b2 => simp only [mergeDescF]; simp
        | namedRef n2 => simp only [mergeDescF]; simp
      | arrayType i1 cs1 =>
        have hlt : tdSize i1 < fuel := by simp [tdSize] at hsz; omega
        cases d2 with
        | arrayType i2 cs2 =>
          simp only [mergeDescF]
          apply bindE_ne_error (ih.1 l1 l2 i1 i2 hlt)
          intro i _
          exact bindE_ne_error (mergeCons_ne_out _ _ _ _) (fun c _ => by simp)
        | primitive k2 c2 => simp only [mergeDescF]; split <;> simp
        | objectType f2 o2 => simp only [mergeDescF]; simp
        | enumType e2 => simp only [mergeDescF]; simp
        | unionType b2 => simp only [mergeDescF]; simp
        | namedRef n2 => simp only [mergeDescF]; simp
      | enumType e1 =>
        cases d2 with
        | primitive k2 c2 => simp only [mergeDescF]; split <;> simp
        | enumType e2 => simp only [mergeDescF]; simp
        | objectType f2 o2 => simp only [mergeDescF]; simp
        | arrayType i2 cs2 => simp only [mergeDescF]; simp
        | unionType b2 => simp only [mergeDescF]; simp
        | namedRef n2 => simp only [mergeDescF]; simp
      | unionType b1 =>
        cases d2 with
        | primitive k2 c2 => simp only [mergeDescF]; split <;> simp
        | unionType b2 => simp only [mergeDescF]; simp
        | objectType f2 o2 => simp only [mergeDescF]; simp
        | arrayType i2 cs2 => simp only [mergeDescF]; simp
        | enumType e2 => simp only [mergeDescF]; simp
        | namedRef n2 => simp only [mergeDescF]; simp
      | namedRef n1 =>
        cases d2 with
        | primitive k2 c2 => simp only [mergeDescF]; split <;> simp
        | namedRef n2 => simp only [mergeDescF]; split <;> simp
        | objectType f2 o2 => simp only [mergeDescF]; simp
        | arrayType i2 cs2 => simp only [mergeDescF]; simp
        | enumType e2 => simp only [mergeDescF]; simp
        | unionType b2 => simp only [mergeDescF]; simp
    · intro l1 l2 f1 f2 hsz
      cases f1 with
      | nil => simp [mergeFieldsF]
      | cons f rest =>
        have hlt1 : tdSize f.2.2.2 < fuel := by simp [tdFieldsSize] at hsz; omega
        have hlt2 : tdFieldsSize rest < fuel := by simp [tdFieldsSize] at hsz; omega
        simp only [mergeFieldsF]
        rcases hl : lookupFieldT f2 f.1 with _ | g
        · exact bindE_ne_error (ih.2 l1 l2 rest f2 hlt2) (fun fs _ => by simp)
        · apply bindE_ne_error (ih.1 l1 l2 f.2.2.2 g.2.2.2 hlt1)
          intro t _
          exact bindE_ne_error (ih.2 l1 l2 rest _ hlt2) (fun fs _ => by simp)

/-- The `allOf` contribution fold never reports the fuel marker. -/
theorem foldMerge_no_fuel : ∀ (contribs : List (String × TypeDescriptor))
    (acc : String × TypeDescriptor), foldMerge acc contribs ≠ .error .outOfFuel := by
  intro contribs
  induction contribs with
  | nil => intro acc; simp [foldMerge]
  | cons c rest ih =>
    intro acc
    rcases c with ⟨ml, md⟩
    simp only [foldMerge]
    exact bindE_ne_error
      ((merge_no_fuel (tdSize acc.2 + 1)).1 acc.1 ml acc.2 md (Nat.lt_succ_self _))
      (fun d _ => ih _)

/-- Budget accounting for pushing a fresh pointer onto the stack. -/
theorem push_budget (N s S3 jn jt F : Nat) (hs : s + 1 ≤ N) (hj : 3 * jt + 4 ≤ S3)
    (h : 2 * ((N + 1 - s) * S3 + 3 * jn + 2) ≤ F + 1) :
    2 * ((N + 1 - (s + 1)) * S3 + 3 * jt + 2) ≤ F := by
  have e1 : N + 1 - s = (N - s) + 1 := by omega
  have e2 : N + 1 - (s + 1) = N - s := by omega
  have e3 : ((N - s) + 1) * S3 = (N - s) * S3 + S3 := by ring
  rw [e1, e3] at h
  rw [e2]
  omega

/-- Every walk budget is positive on a well-formed stack. -/
theorem budget_pos (N s S3 t : Nat) (hs : s ≤ N) (hS : 4 ≤ S3) :
    1 ≤ 2 * ((N + 1 - s) * S3 + t) := by
  have h2 : S3 ≤ (N + 1 - s) * S3 := Nat.le_mul_of_pos_left S3 (by omega)
  omega

/-- With sufficient budget, no walk function reports the fuel marker: the
stack-room/size measure strictly decreases along every recursion. -/
theorem walk_no_fuel (doc : Json) (rootName : String) : ∀ fuel : Nat,
    (∀ (stack : List Ptr) (defs : Defs) (loc : String) (node : Json), StackOk doc stack →
      2 * (((allPtrs doc).length + 1 - stack.length) * (3 * jsize doc + 4)
        + 3 * jsize node + 2) ≤ fuel →
      walkF doc rootName fuel stack defs loc node ≠ .error .outOfFuel) ∧
    (∀ (stack : List Ptr) (defs : Defs) (loc : String) (fields : List (String × Json)),
      StackOk doc stack →
      2 * (((allPtrs doc).length + 1 - stack.length) * (3 * jsize doc + 4)
        + 3 * jsizeObj fields + 1) ≤ fuel →
      mapSelfF doc rootName fuel stack defs loc fields ≠ .error .outOfFuel) ∧
    (∀ (stack : List Ptr) (defs : Defs) (loc : String) (i : Nat) (ms : List Json),
      StackOk doc stack →
      2 * (((allPtrs doc).length + 1 - stack.length) * (3 * jsize doc + 4)
        + 3 * jsizeArr ms) ≤ fuel →
      walkMembersF doc rootName fuel stack defs loc i ms ≠ .error .outOfFuel) ∧
    (∀ (stack : List Ptr) (defs : Defs) (loc : String) (req : List String)
       (props : List (String × Json)), StackOk doc stack →
      2 * (((allPtrs doc).length + 1 - stack.length) * (3 * jsize doc + 4)
        + 3 * jsizeObj props) ≤ fuel →
      walkFieldsF doc rootName fuel stack defs loc req props ≠ .error .outOfFuel) ∧
    (∀ (stack : List Ptr) (defs : Defs) (loc kw : String) (i : Nat) (ms : List Json),
      StackOk doc stack →
      2 * (((allPtrs doc).length + 1 - stack.length) * (3 * jsize doc + 4)
        + 3 * jsizeArr ms) ≤ fuel →
      walkBranchesF doc rootName fuel stack defs loc kw i ms ≠ .error .outOfFuel) := by
  intro fuel
  induction fuel with
  | zero =>
    refine ⟨?_, ?_, ?_, ?_, ?_⟩
    · intro stack defs loc node hstk hbud
      have := budget_pos ((allPtrs doc).length) stack.length (3 * jsize doc + 4)
        (3 * jsize node + 2) (stackOk_length hstk) (by omega)
      omega
    · intro stack defs loc fields hstk hbud
      have := budget_pos ((allPtrs doc).length) stack.length (3 * jsize doc + 4)
        (3 * jsizeObj fields + 1) (stackOk_length hstk) (by omega)
      omega
    · intro stack defs loc i ms hstk hbud
      have := budget_pos ((allPtrs doc).length) stack.length (3 * jsize doc + 4)
        (3 * jsizeArr ms) (stackOk_length hstk) (by omega)
      omega
    · intro stack defs loc req props hstk hbud
      have := budget_pos ((allPtrs doc).length) stack.length (3 * jsize doc + 4)
        (3 * jsizeObj props) (stackOk_length hstk) (by omega)
      omega
    · intro stack defs loc kw i ms hstk hbud
      have := budget_pos ((allPtrs doc).length) stack.length (3 * jsize doc + 4)
        (3 * jsizeArr ms) (stackOk_length hstk) (by omega)
      omega
  | succ fuel ih =>
    obtain ⟨ihW, ihS, ihM, ihF, ihB⟩ := ih
    refine ⟨?_, ?_, ?_, ?_, ?_⟩
    · -- walkF
      intro stack defs loc node hstk hbud
      cases node with
      | null => simp [walkF]
      | bool b => simp [walkF]
      | num n => simp [walkF]
      | str s => simp [walkF]
      | arr xs => simp [walkF]
      | obj fields =>
        have hjn : jsize (Json.obj fields) = 1 + jsizeObj fields := by simp [jsize]
        rw [hjn] at hbud
        simp only [walkF]
        split
        · -- a $ref node
          split
          · simp
          · rename_i p hpr
            split
            · simp
            · rename_i target hrp
              by_cases hps : p ∈ stack
              · rw [if_pos hps]
                simp
              · rw [if_neg hps]
                by_cases hdc : defsContains defs (synthesizedName rootName p) = true
                · rw [if_pos hdc]
                  simp
                · rw [if_neg hdc]
                  have hstk2 : StackOk doc (p :: stack) := by
                    refine ⟨List.nodup_cons.mpr ⟨hps, hstk.1⟩, ?_⟩
                    intro q hq
                    rcases List.mem_cons.mp hq with hq | hq
                    · subst hq
                      exact resolvePointer_mem_allPtrs hrp
                    · exact hstk.2 q hq
                  apply bindE_ne_error
                  · apply ihW (p :: stack) defs (ptrToString p) target hstk2
                    have hlen : stack.length + 1 ≤ (allPtrs doc).length := by
                      have := stackOk_length hstk2
                      simpa using this
                    have hjt : 3 * jsize target + 4 ≤ 3 * jsize doc + 4 := by
                      have := resolvePointer_jsize hrp
                      omega
                    have hpb := push_budget ((allPtrs doc).length) stack.length
                      (3 * jsize doc + 4) (1 + jsizeObj fields) (jsize target) fuel
                      hlen hjt hbud
                    simpa using hpb
                  · intro r2 _
                    simp
        · -- no $ref: allOf members, self mapping, merge
          apply bindE_ne_error
          · apply ihM stack defs loc 0 (allOfOf fields) hstk
            have hms := allOfOf_jsize fields
            omega
          · intro rc _
            apply bindE_ne_error
            · apply ihS stack rc.2 loc fields hstk
              omega
            · intro rs _
              apply bindE_ne_error (foldMerge_no_fuel _ _)
              intro d _
              simp
    · -- mapSelfF
      intro stack defs loc fields hstk hbud
      simp only [mapSelfF]
      split
      · simp
      · simp
      · simp
      · simp
      · simp
      · -- array
        rcases hji : jsonLookup fields "items" with _ | j
        · simp
        · have hj := jsonLookup_jsize hji
          apply bindE_ne_error
          · apply ihW stack defs (loc ++ "/items") j hstk
            omega
          · intro r _
            simp
      · -- object
        apply bindE_ne_error
        · apply ihF stack defs loc (requiredOf fields) (propsOf fields) hstk
          have := propsOf_jsize fields
          omega
        · intro r _
          simp
      · simp
      · -- none: enum / branches / any
        split
        · split <;> simp
        · split
          · rename_i kw ms hbr
            have := branchesOf_jsize hbr
            apply bindE_ne_error
            · apply ihB stack defs loc kw 0 ms hstk
              omega
            · intro r _
              simp
          · simp
    · -- walkMembersF
      intro stack defs loc i ms hstk hbud
      cases ms with
      | nil => simp [walkMembersF]
      | cons m rest =>
        have hm1 := jsize_pos m
        have hsz : jsizeArr (m :: rest) = 1 + jsize m + jsizeArr rest := by simp [jsizeArr]
        rw [hsz] at hbud
        simp only [walkMembersF]
        apply bindE_ne_error
        · apply ihW stack defs (loc ++ "/allOf/" ++ Nat.repr i) m hstk
          omega
        · intro r _
          apply bindE_ne_error
          · apply ihM stack r.2 loc (i + 1) rest hstk
            omega
          · intro rr _
            simp
    · -- walkFieldsF
      intro stack defs loc req props hstk hbud
      cases props with
      | nil => simp [walkFieldsF]
      | cons p rest =>
        rcases p with ⟨pname, pschema⟩
        have hp1 := jsize_pos pschema
        have hsz : jsizeObj ((pname, pschema) :: rest) = 1 + jsize pschema + jsizeObj rest := by
          simp [jsizeObj]
        rw [hsz] at hbud
        simp only [walkFieldsF]
        apply bindE_ne_error
        · apply ihW stack defs (loc ++ "/properties/" ++ pname) pschema hstk
          omega
        · intro r _
          apply bindE_ne_error
          · apply ihF stack r.2 loc req rest hstk
            omega
          · intro rr _
            simp
    · -- walkBranchesF
      intro stack defs loc kw i ms hstk hbud
      cases ms with
      | nil => simp [walkBranchesF]
      | cons m rest =>
        have hm1 := jsize_pos m
        have hsz : jsizeArr (m :: rest) = 1 + jsize m + jsizeArr rest := by simp [jsizeArr]
        rw [hsz] at hbud
        simp only [walkBranchesF]
        apply bindE_ne_error
        · apply ihW stack defs (loc ++ "/" ++ kw ++ "/" ++ Nat.repr i) m hstk
          omega
        · intro r _
          apply bindE_ne_error
          · apply ihB stack r.2 loc kw (i + 1) rest hstk
            omega
          · intro rr _
            simp

/-- The initial budget of a one-element or root stack fits the fuel bound. -/
theorem initial_budget (N S3 jv jd : Nat) (hv : jv ≤ jd) (hS : S3 = 3 * jd + 4) :
    2 * ((N + 1 - 1) * S3 + 3 * jv + 2) ≤ 2 * (N + 2) * S3 := by
  have e1 : N + 1 - 1 = N := by omega
  rw [e1]
  have e2 : 2 * (N + 2) * S3 = 2 * (N * S3 + 2 * S3) := by ring
  rw [e2]
  omega

/-- A `definitions`/`$defs` entry is addressable and no larger than the
document. -/
theorem defsEntriesOf_facts {doc : Json} {kw k : String} {v : Json}
    (h : (k, v) ∈ defsEntriesOf doc kw) :
    [kw, k] ∈ allPtrs doc ∧ jsize v ≤ jsize doc := by
  cases doc with
  | obj fields =>
    simp only [defsEntriesOf] at h
    split at h
    · rename_i dfs hl
      constructor
      · obtain ⟨w2, hw2⟩ := mem_exists_jsonLookup h
        apply resolvePointer_mem_allPtrs (t := w2)
        simp only [resolvePointer, hl, hw2]
      · have h1 := mem_jsize_obj h
        have h2 := jsonLookup_jsize hl
        simp [jsize] at h2 ⊢
        omega
    · simp at h
  | null => simp [defsEntriesOf] at h
  | bool b => simp [defsEntriesOf] at h
  | num n => simp [defsEntriesOf] at h
  | str s => simp [defsEntriesOf] at h
  | arr xs => simp [defsEntriesOf] at h

/-- The definition-entry sweep never reports the fuel marker. -/
theorem walkDefsF_no_fuel (doc : Json) (rootName kw : String) :
    ∀ (entries : List (String × Json)) (defs : Defs),
      (∀ k v, (k, v) ∈ entries → [kw, k] ∈ allPtrs doc ∧ jsize v ≤ jsize doc) →
      walkDefsF doc rootName (fuelBound doc) kw defs entries ≠ .error .outOfFuel := by
  intro entries
  induction entries with
  | nil => intro defs h; simp [walkDefsF]
  | cons e rest ih =>
    intro defs h
    rcases e with ⟨k, v⟩
    simp only [walkDefsF]
    split
    · exact ih defs (fun k2 v2 hm => h k2 v2 (List.mem_cons_of_mem _ hm))
    · apply bindE_ne_error
      · apply (walk_no_fuel doc rootName (fuelBound doc)).1 [[kw, k]] defs
          (ptrToString [kw, k]) v
        · refine ⟨List.nodup_singleton _, ?_⟩
          intro q hq
          simp at hq
          subst hq
          exact (h k v (List.mem_cons_self _ _)).1
        · have hv := (h k v (List.mem_cons_self _ _)).2
          show _ ≤ fuelBound doc
          unfold fuelBound
          have := initial_budget ((allPtrs doc).length) (3 * jsize doc + 4) (jsize v)
            (jsize doc) hv rfl
          simpa using this
      · intro r _
        exact ih _ (fun k2 v2 hm => h k2 v2 (List.mem_cons_of_mem _ hm))

/-- C1 termination component: `process` never exhausts its fuel — the walk
always terminates with a result or a genuine resolution error. -/
theorem process_no_out (doc : Json) (rootName : String) :
    process doc rootName ≠ .error .outOfFuel := by
  unfold process processF
  apply bindE_ne_error
  · apply (walk_no_fuel doc rootName (fuelBound doc)).1 [[]] [] "#" doc
    · refine ⟨List.nodup_singleton _, ?_⟩
      intro q hq
      simp at hq
      subst hq
      exact nil_mem_allPtrs doc
    · show _ ≤ fuelBound doc
      unfold fuelBound
      have := initial_budget ((allPtrs doc).length) (3 * jsize doc + 4) (jsize doc)
        (jsize doc) (le_refl _) rfl
      simpa using this
  · intro r _
    apply bindE_ne_error
    · exact walkDefsF_no_fuel doc rootName "definitions" _ _
        (fun k v hm => defsEntriesOf_facts hm)
    · intro defs3 _
      apply bindE_ne_error
      · exact walkDefsF_no_fuel doc rootName "$defs" _ _
          (fun k v hm => defsEntriesOf_facts hm)
      · intro defs4 _
        simp

/-- The definition table's key set. -/
def keysOf (defs : Defs) : List String := defs.map Prod.fst

/-- Every named reference inside the descriptor resolves within the given
key set (the TypeGraph invariant of spec.md §3). -/
inductive RefsClosed (ks : List String) : TypeDescriptor → Prop
  | primitive (k : PrimKind) (c : Constraints) : RefsClosed ks (.primitive k c)
  | enumType (ls : List Json) : RefsClosed ks (.enumType ls)
  | namedRef (n : String) (h : n ∈ ks) : RefsClosed ks (.namedRef n)
  | objectType (fs : List FieldT) (op : Bool)
      (h : ∀ f ∈ fs, RefsClosed ks (Prod.snd (Prod.snd (Prod.snd f)))) :
      RefsClosed ks (.objectType fs op)
  | arrayType (i : TypeDescriptor) (c : Constraints) (h : RefsClosed ks i) :
      RefsClosed ks (.arrayType i c)
  | unionType (bs : List TypeDescriptor) (h : ∀ b ∈ bs, RefsClosed ks b) :
      RefsClosed ks (.unionType bs)

/-- Closedness is monotone in the key set. -/
theorem RefsClosed.mono {ks ks' : List String} {d : TypeDescriptor}
    (h : RefsClosed ks d) (hsub : ks ⊆ ks') : RefsClosed ks' d := by
  induction h with
  | primitive k c => exact .primitive k c
  | enumType ls => exact .enumType ls
  | namedRef n hn => exact .namedRef n (hsub hn)
  | objectType fs op hf ih => exact .objectType fs op ih
  | arrayType i c hi ih => exact .arrayType i c ih
  | unionType bs hb ih => exact .unionType bs ih

/-- Every table entry's descriptor is closed under the given key set. -/
def DefsOk (ks : List String) (defs : Defs) : Prop :=
  ∀ e ∈ defs, RefsClosed ks e.2

/-- Table closedness is monotone in the key set. -/
theorem DefsOk.widen {ks ks' : List String} {defs : Defs}
    (h : DefsOk ks defs) (hsub : ks ⊆ ks') : DefsOk ks' defs :=
  fun e he => (h e he).mono hsub

/-- Containment test agrees with key-set membership. -/
theorem defsContains_iff {defs : Defs} {n : String} :
    defsContains defs n = true ↔ n ∈ keysOf defs := by
  induction defs with
  | nil => simp [defsContains, keysOf]
  | cons e rest ih =>
    rcases e with ⟨m, d⟩
    simp only [defsContains, keysOf, List.map_cons, List.mem_cons]
    by_cases hm : m = n
    · simp [hm]
    · simp [hm, ih, keysOf]
      intro h
      exact absurd h.symm hm

/-- A found table entry is a member of the table. -/
theorem defsFind_mem {defs : Defs} {n : String} {d : TypeDescriptor}
    (h : defsFind defs n = some d) : (n, d) ∈ defs := by
  induction defs with
  | nil => simp [defsFind] at h
  | cons e rest ih =>
    rcases e with ⟨m, d1⟩
    simp only [defsFind] at h
    by_cases hm : m = n
    · rw [if_pos hm] at h
      injection h with h2
      subst hm
      subst h2
      exact List.mem_cons_self _ _
    · rw [if_neg hm] at h
      exact List.mem_cons_of_mem _ (ih h)

/-- A found field is a member of the field list. -/
theorem lookupFieldT_mem {fs : List FieldT} {n : String} {g : FieldT}
    (h : lookupFieldT fs n = some g) : g ∈ fs := by
  induction fs with
  | nil => simp [lookupFieldT] at h
  | cons f rest ih =>
    simp only [lookupFieldT] at h
    by_cases hn : f.1 = n
    · rw [if_pos hn] at h
      injection h with h2
      subst h2
      exact List.mem_cons_self _ _
    · rw [if_neg hn] at h
      exact List.mem_cons_of_mem _ (ih h)

/-- Removing a name keeps a sublist. -/
theorem removeFieldT_subset (fs : List FieldT) (n : String) :
    removeFieldT fs n ⊆ fs :=
  (List.filter_sublist _).subset

/-- List shuffling: an appended cons absorbs into a consed append. -/
theorem append_cons_subset {α : Type} (a : List α) (y : α) (b : List α) :
    (a ++ y :: b) ⊆ (y :: a) ++ b := by
  intro x hx
  simp only [List.mem_append, List.mem_cons] at hx ⊢
  tauto

/-- List shuffling: the reverse inclusion. -/
theorem cons_append_subset {α : Type} (a : List α) (y : α) (b : List α) :
    ((y :: a) ++ b) ⊆ (a ++ y :: b) := by
  intro x hx
  simp only [List.mem_append, List.mem_cons] at hx ⊢
  tauto

/-- The nullable collapse preserves closedness. -/
theorem collapseNullable_refs {ks : List String} {d : TypeDescriptor}
    (h : RefsClosed ks d) : RefsClosed ks (collapseNullable d).1 := by
  cases d with
  | unionType bs =>
    cases h with
    | unionType _ hb =>
      simp only [collapseNullable]
      split
      · split
        · exact .unionType bs hb
        · rename_i d1 heq
          have hd1 : d1 ∈ bs := by
            have : d1 ∈ bs.filter (fun b => !(isNullPrim b)) := by
              rw [heq]
              exact List.mem_cons_self _ _
            exact (List.mem_filter.mp this).1
          exact hb d1 hd1
        · refine .unionType _ ?_
          intro b hbmem
          exact hb b (List.mem_filter.mp hbmem).1
      · exact .unionType bs hb
  | primitive k c => exact h
  | objectType fs op => exact h
  | arrayType i c => exact h
  | enumType ls => exact h
  | namedRef n => exact h

/-- Member-contribution inlining preserves closedness. -/
theorem memberContrib_refs {ks : List String} {d : TypeDescriptor} {defs : Defs}
    (h : RefsClosed ks d) (hdefs : DefsOk ks defs) :
    RefsClosed ks (memberContrib d defs) := by
  cases d with
  | namedRef n =>
    simp only [memberContrib]
    rcases hf : defsFind defs n with _ | dd
    · exact h
    · exact hdefs _ (defsFind_mem hf)
  | primitive k c => exact h
  | objectType fs op => exact h
  | arrayType i c => exact h
  | enumType ls => exact h
  | unionType bs => exact h

/-- The descriptor merge preserves closedness. -/
theorem merge_refs (ks : List String) : ∀ fuel : Nat,
    (∀ (l1 l2 : String) (d1 d2 d : TypeDescriptor),
      mergeDescF fuel l1 l2 d1 d2 = .ok d →
      RefsClosed ks d1 → RefsClosed ks d2 → RefsClosed ks d) ∧
    (∀ (l1 l2 : String) (f1 f2 fs : List FieldT),
      mergeFieldsF fuel l1 l2 f1 f2 = .ok fs →
      (∀ f ∈ f1, RefsClosed ks f.2.2.2) → (∀ f ∈ f2, RefsClosed ks f.2.2.2) →
      ∀ f ∈ fs, RefsClosed ks f.2.2.2) := by
  intro fuel
  induction fuel with
  | zero =>
    constructor
    · intro l1 l2 d1 d2 d h
      simp [mergeDescF] at h
    · intro l1 l2 f1 f2 fs h
      simp [mergeFieldsF] at h
  | succ fuel ih =>
    constructor
    · intro l1 l2 d1 d2 d h h1 h2
      cases d1 with
      | primitive k1 c1 =>
        cases d2 with
        | primitive k2 c2 =>
          simp only [mergeDescF] at h
          split at h
          · obtain ⟨c, hc, hok⟩ := bindE_eq_ok h
            injection hok with hok2
            subst hok2
            exact .primitive _ _
          · cases h
        | objectType f2 o2 =>
          simp only [mergeDescF] at h
          split at h
          · injection h with h3; subst h3; exact h2
          · cases h
        | arrayType i2 cs2 =>
          simp only [mergeDescF] at h
          split at h
          · injection h with h3; subst h3; exact h2
          · cases h
        | enumType e2 =>
          simp only [mergeDescF] at h
          split at h
          · injection h with h3; subst h3; exact h2
          · cases h
        | unionType b2 =>
          simp only [mergeDescF] at h
          split at h
          · injection h with h3; subst h3; exact h2
          · cases h
        | namedRef n2 =>
          simp only [mergeDescF] at h
          split at h
          · injection h with h3; subst h3; exact h2
          · cases h
      | objectType f1 o1 =>
        cases d2 with
        | objectType f2 o2 =>
          simp only [mergeDescF] at h
          obtain ⟨fs0, hfs, hok⟩ := bindE_eq_ok h
          injection hok with hok2
          subst hok2
          cases h1 with
          | objectType _ _ hf1 =>
            cases h2 with
            | objectType _ _ hf2 =>
              exact .objectType _ _ (ih.2 l1 l2 f1 f2 fs0 hfs hf1 hf2)
        | primitive k2 c2 =>
          simp only [mergeDescF] at h
          split at h
          · injection h with h3; subst h3; exact h1
          · cases h
        | arrayType i2 cs2 => simp only [mergeDescF] at h; cases h
        | enumType e2 => simp only [mergeDescF] at h; cases h
        | unionType b2 => simp only [mergeDescF] at h; cases h
        | namedRef n2 => simp only [mergeDescF] at h; cases h
      | arrayType i1 cs1 =>
        cases d2 with
        | arrayType i2 cs2 =>
          simp only [mergeDescF] at h
          obtain ⟨i, hi, hok1⟩ := bindE_eq_ok h
          obtain ⟨c, hc, hok2⟩ := bindE_eq_ok hok1
          injection hok2 with hok3
          subst hok3
          cases h1 with
          | arrayType _ _ hi1 =>
            cases h2 with
            | arrayType _ _ hi2 =>
              exact .arrayType _ _ (ih.1 l1 l2 i1 i2 i hi hi1 hi2)
        | primitive k2 c2 =>
          simp only [mergeDescF] at h
          split at h
          · injection h with h3; subst h3; exact h1
          · cases h
        | objectType f2 o2 => simp only [mergeDescF] at h; cases h
        | enumType e2 => simp only [mergeDescF] at h; cases h
        | unionType b2 => simp only [mergeDescF] at h; cases h
        | namedRef n2 => simp only [mergeDescF] at h; cases h
      | enumType e1 =>
        cases d2 with
        | primitive k2 c2 =>
          simp only [mergeDescF] at h
          split at h
          · injection h with h3; subst h3; exact h1
          · cases h
        | enumType e2 => simp only [mergeDescF] at h; cases h
        | objectType f2 o2 => simp only [mergeDescF] at h; cases h
        | arrayType i2 cs2 => simp only [mergeDescF] at h; cases h
        | unionType b2 => simp only [mergeDescF] at h; cases h
        | namedRef n2 => simp only [mergeDescF] at h; cases h
      | unionType b1 =>
        cases d2 with
        | primitive k2 c2 =>
          simp only [mergeDescF] at h
          split at h
          · injection h with h3; subst h3; exact h1
          · cases h
        | unionType b2 => simp only [mergeDescF] at h; cases h
        | objectType f2 o2 => simp only [mergeDescF] at h; cases h
        | arrayType i2 cs2 => simp only [mergeDescF] at h; cases h
        | enumType e2 => simp only [mergeDescF] at h; cases h
        | namedRef n2 => simp only [mergeDescF] at h; cases h
      | namedRef n1 =>
        cases d2 with
        | primitive k2 c2 =>
          simp only [mergeDescF] at h
          split at h
          · injection h with h3; subst h3; exact h1
          · cases h
        | namedRef n2 =>
          simp only [mergeDescF] at h
          split at h
          · injection h with h3; subst h3; exact h1
          · cases h
        | objectType f2 o2 => simp only [mergeDescF] at h; cases h
        | arrayType i2 cs2 => simp only [mergeDescF] at h; cases h
        | enumType e2 => simp only [mergeDescF] at h; cases h
        | unionType b2 => simp only [mergeDescF] at h; cases h
    · intro l1 l2 f1 f2 fs h h1 h2
      cases f1 with
      | nil =>
        simp only [mergeFieldsF] at h
        injection h with h3
        subst h3
        exact h2
      | cons f rest =>
        simp only [mergeFieldsF] at h
        split at h
        · obtain ⟨fs0, hfs, hok⟩ := bindE_eq_ok h
          injection hok with hok2
          subst hok2
          intro f2m hf2m
          rcases List.mem_cons.mp hf2m with hf2m | hf2m
          · subst hf2m
            exact h1 _ (List.mem_cons_self _ _)
          · exact ih.2 l1 l2 rest f2 fs0 hfs
              (fun g hg => h1 g (List.mem_cons_of_mem _ hg)) h2 _ hf2m
        · rename_i g hl
          obtain ⟨t, ht, hok1⟩ := bindE_eq_ok h
          obtain ⟨fs0, hfs, hok2⟩ := bindE_eq_ok hok1
          injection hok2 with hok3
          subst hok3
          intro f2m hf2m
          rcases List.mem_cons.mp hf2m with hf2m | hf2m
          · subst hf2m
            exact ih.1 l1 l2 f.2.2.2 g.2.2.2 t ht
              (h1 f (List.mem_cons_self _ _)) (h2 g (lookupFieldT_mem hl))
          · exact ih.2 l1 l2 rest (removeFieldT f2 f.1) fs0 hfs
              (fun g2 hg2 => h1 g2 (List.mem_cons_of_mem _ hg2))
              (fun g2 hg2 => h2 g2 (removeFieldT_subset _ _ hg2)) _ hf2m

/-- The contribution fold preserves closedness. -/
theorem foldMerge_refs {ks : List String} :
    ∀ (contribs : List (String × TypeDescriptor)) (acc : String × TypeDescriptor)
      (d : TypeDescriptor), foldMerge acc contribs = .ok d →
      RefsClosed ks acc.2 → (∀ c ∈ contribs, RefsClosed ks c.2) → RefsClosed ks d := by
  intro contribs
  induction contribs with
  | nil =>
    intro acc d h hacc hc
    simp only [foldMerge] at h
    injection h with h2
    subst h2
    exact hacc
  | cons c rest ih =>
    intro acc d h hacc hc
    rcases c with ⟨ml, md⟩
    simp only [foldMerge] at h
    obtain ⟨d1, hd1, hrest⟩ := bindE_eq_ok h
    have hmd : RefsClosed ks md := hc _ (List.mem_cons_self _ _)
    have hd1c : RefsClosed ks d1 :=
      (merge_refs ks (tdSize acc.2 + 1)).1 _ _ acc.2 md d1 hd1 hacc hmd
    exact ih _ d hrest hd1c (fun c2 hc2 => hc _ (List.mem_cons_of_mem _ hc2))

/-- The key set visible during a walk: materialized names plus the names
promised by the in-progress stack. -/
def ksFor (rootName : String) (defs : Defs) (stack : List Ptr) : List String :=
  keysOf defs ++ stack.map (synthesizedName rootName)

/-- Growing the table grows the visible key set. -/
theorem ksFor_mono {rootName : String} {defs defs' : Defs} {stack : List Ptr}
    (h : keysOf defs ⊆ keysOf defs') :
    ksFor rootName defs stack ⊆ ksFor rootName defs' stack := by
  intro x hx
  simp only [ksFor, List.mem_append] at hx ⊢
  rcases hx with hx | hx
  · exact Or.inl (h hx)
  · exact Or.inr hx

/-- Pushing a pointer grows the visible key set. -/
theorem ksFor_push {rootName : String} {defs : Defs} {stack : List Ptr} {p : Ptr} :
    ksFor rootName defs stack ⊆ ksFor rootName defs (p :: stack) := by
  intro x hx
  simp only [ksFor, List.mem_append, List.map_cons, List.mem_cons] at hx ⊢
  tauto

/-- Fulfilling the top promise: entering the pushed pointer's name into the
table covers the popped stack entry. -/
theorem ksFor_insert {rootName : String} {defs : Defs} {stack : List Ptr} {p : Ptr}
    {d : TypeDescriptor} :
    ksFor rootName defs (p :: stack) ⊆
      ksFor rootName ((synthesizedName rootName p, d) :: defs) stack := by
  intro x hx
  simp only [ksFor, keysOf, List.mem_append, List.map_cons, List.mem_cons] at hx ⊢
  tauto

/-- The resolution walk keeps the definition table closed and produces
closed descriptors: every named reference points at a materialized name or
at a name promised by the in-progress stack. -/
theorem walk_refs (doc : Json) (rootName : String) : ∀ fuel : Nat,
    (∀ (stack : List Ptr) (defs : Defs) (loc : String) (node : Json)
       (r : TypeDescriptor × Defs),
      walkF doc rootName fuel stack defs loc node = .ok r →
      DefsOk (ksFor rootName defs stack) defs →
      keysOf defs ⊆ keysOf r.2 ∧ DefsOk (ksFor rootName r.2 stack) r.2 ∧
        RefsClosed (ksFor rootName r.2 stack) r.1) ∧
    (∀ (stack : List Ptr) (defs : Defs) (loc : String) (fields : List (String × Json))
       (r : TypeDescriptor × Defs),
      mapSelfF doc rootName fuel stack defs loc fields = .ok r →
      DefsOk (ksFor rootName defs stack) defs →
      keysOf defs ⊆ keysOf r.2 ∧ DefsOk (ksFor rootName r.2 stack) r.2 ∧
        RefsClosed (ksFor rootName r.2 stack) r.1) ∧
    (∀ (stack : List Ptr) (defs : Defs) (loc : String) (i : Nat) (ms : List Json)
       (r : List (String × TypeDescriptor) × Defs),
      walkMembersF doc rootName fuel stack defs loc i ms = .ok r →
      DefsOk (ksFor rootName defs stack) defs →
      keysOf defs ⊆ keysOf r.2 ∧ DefsOk (ksFor rootName r.2 stack) r.2 ∧
        ∀ c ∈ r.1, RefsClosed (ksFor rootName r.2 stack) c.2) ∧
    (∀ (stack : List Ptr) (defs : Defs) (loc : String) (req : List String)
       (props : List (String × Json)) (r : List FieldT × Defs),
      walkFieldsF doc rootName fuel stack defs loc req props = .ok r →
      DefsOk (ksFor rootName defs stack) defs →
      keysOf defs ⊆ keysOf r.2 ∧ DefsOk (ksFor rootName r.2 stack) r.2 ∧
        ∀ f ∈ r.1, RefsClosed (ksFor rootName r.2 stack) (Prod.snd (Prod.snd (Prod.snd f)))) ∧
    (∀ (stack : List Ptr) (defs : Defs) (loc kw : String) (i : Nat) (ms : List Json)
       (r : List TypeDescriptor × Defs),
      walkBranchesF doc rootName fuel stack defs loc kw i ms = .ok r →
      DefsOk (ksFor rootName defs stack) defs →
      keysOf defs ⊆ keysOf r.2 ∧ DefsOk (ksFor rootName r.2 stack) r.2 ∧
        ∀ b ∈ r.1, RefsClosed (ksFor rootName r.2 stack) b) := by
  intro fuel
  induction fuel with
  | zero =>
    refine ⟨?_, ?_, ?_, ?_, ?_⟩
    · intro stack defs loc node r h
      simp [walkF] at h
    · intro stack defs loc fields r h
      simp [mapSelfF] at h
    · intro stack defs loc i ms r h
      simp [walkMembersF] at h
    · intro stack defs loc req props r h
      simp [walkFieldsF] at h
    · intro stack defs loc kw i ms r h
      simp [walkBranchesF] at h
  | succ fuel ih =>
    obtain ⟨ihW, ihS, ihM, ihF, ihB⟩ := ih
    refine ⟨?_, ?_, ?_, ?_, ?_⟩
    · -- walkF
      intro stack defs loc node r h hdefs
      cases node with
      | null =>
        simp only [walkF] at h
        injection h with h2
        subst h2
        exact ⟨List.Subset.refl _, hdefs, .primitive _ _⟩
      | bool b =>
        simp only [walkF] at h
        injection h with h2
        subst h2
        exact ⟨List.Subset.refl _, hdefs, .primitive _ _⟩
      | num n =>
        simp only [walkF] at h
        injection h with h2
        subst h2
        exact ⟨List.Subset.refl _, hdefs, .primitive _ _⟩
      | str s =>
        simp only [walkF] at h
        injection h with h2
        subst h2
        exact ⟨List.Subset.refl _, hdefs, .primitive _ _⟩
      | arr xs =>
        simp only [walkF] at h
        injection h with h2
        subst h2
        exact ⟨List.Subset.refl _, hdefs, .primitive _ _⟩
      | obj fields =>
        simp only [walkF] at h
        split at h
        · -- $ref node
          split at h
          · cases h
          · rename_i p hpr
            split at h
            · cases h
            · rename_i target hrp
              by_cases hps : p ∈ stack
              · rw [if_pos hps] at h
                injection h with h2
                subst h2
                refine ⟨List.Subset.refl _, hdefs, .namedRef _ ?_⟩
                simp only [ksFor, List.mem_append]
                exact Or.inr (List.mem_map_of_mem _ hps)
              · rw [if_neg hps] at h
                by_cases hdc : defsContains defs (synthesizedName rootName p) = true
                · rw [if_pos hdc] at h
                  injection h with h2
                  subst h2
                  refine ⟨List.Subset.refl _, hdefs, .namedRef _ ?_⟩
                  simp only [ksFor, List.mem_append]
                  exact Or.inl (defsContains_iff.mp hdc)
                · rw [if_neg hdc] at h
                  obtain ⟨r0, hr0, hok⟩ := bindE_eq_ok h
                  injection hok with h2
                  subst h2
                  obtain ⟨mono0, defsok0, closed0⟩ :=
                    ihW (p :: stack) defs (ptrToString p) target r0 hr0
                      (hdefs.widen ksFor_push)
                  refine ⟨?_, ?_, ?_⟩
                  · intro x hx
                    simp only [keysOf, List.map_cons, List.mem_cons]
                    exact Or.inr (mono0 hx)
                  · intro e he
                    rcases List.mem_cons.mp he with he | he
                    · subst he
                      exact closed0.mono ksFor_insert
                    · exact (defsok0 e he).mono ksFor_insert
                  · refine .namedRef _ ?_
                    simp [ksFor, keysOf]
        · -- allOf / self node
          obtain ⟨rc, hrc, h2⟩ := bindE_eq_ok h
          obtain ⟨rs, hrs, h3⟩ := bindE_eq_ok h2
          obtain ⟨dd, hdd, h4⟩ := bindE_eq_ok h3
          injection h4 with h5
          subst h5
          obtain ⟨monoM, defsokM, closedCs⟩ := ihM stack defs loc 0 (allOfOf fields) rc hrc hdefs
          obtain ⟨monoS, defsokS, closedSelf⟩ := ihS stack rc.2 loc fields rs hrs defsokM
          have hcs : ∀ c ∈ rc.1, RefsClosed (ksFor rootName rs.2 stack) c.2 :=
            fun c hc => (closedCs c hc).mono (ksFor_mono monoS)
          have hdd2 : RefsClosed (ksFor rootName rs.2 stack) dd :=
            foldMerge_refs rc.1 (loc, rs.1) dd hdd closedSelf hcs
          exact ⟨monoM.trans monoS, defsokS, hdd2⟩
    · -- mapSelfF
      intro stack defs loc fields r h hdefs
      simp only [mapSelfF] at h
      split at h
      · injection h with h2; subst h2; exact ⟨List.Subset.refl _, hdefs, .primitive _ _⟩
      · injection h with h2; subst h2; exact ⟨List.Subset.refl _, hdefs, .primitive _ _⟩
      · injection h with h2; subst h2; exact ⟨List.Subset.refl _, hdefs, .primitive _ _⟩
      · injection h with h2; subst h2; exact ⟨List.Subset.refl _, hdefs, .primitive _ _⟩
      · injection h with h2; subst h2; exact ⟨List.Subset.refl _, hdefs, .primitive _ _⟩
      · -- array
        split at h
        · obtain ⟨r0, hr0, hok⟩ := bindE_eq_ok h
          injection hok with h2
          subst h2
          obtain ⟨mono0, defsok0, closed0⟩ := ihW stack defs (loc ++ "/items") _ r0 hr0 hdefs
          exact ⟨mono0, defsok0, .arrayType _ _ closed0⟩
        · injection h with h2
          subst h2
          exact ⟨List.Subset.refl _, hdefs, .arrayType _ _ (.primitive _ _)⟩
      · -- object
        obtain ⟨r0, hr0, hok⟩ := bindE_eq_ok h
        injection hok with h2
        subst h2
        obtain ⟨mono0, defsok0, closed0⟩ :=
          ihF stack defs loc (requiredOf fields) (propsOf fields) r0 hr0 hdefs
        exact ⟨mono0, defsok0, .objectType _ _ closed0⟩
      · injection h with h2; subst h2; exact ⟨List.Subset.refl _, hdefs, .primitive _ _⟩
      · -- none: enum / branches / any
        split at h
        · split at h
          · injection h with h2; subst h2; exact ⟨List.Subset.refl _, hdefs, .enumType _⟩
          · cases h
        · split at h
          · rename_i kw ms hbr
            obtain ⟨r0, hr0, hok⟩ := bindE_eq_ok h
            injection hok with h2
            subst h2
            obtain ⟨mono0, defsok0, closed0⟩ := ihB stack defs loc kw 0 ms r0 hr0 hdefs
            exact ⟨mono0, defsok0, .unionType _ closed0⟩
          · injection h with h2; subst h2; exact ⟨List.Subset.refl _, hdefs, .primitive _ _⟩
    · -- walkMembersF
      intro stack defs loc i ms r h hdefs
      cases ms with
      | nil =>
        simp only [walkMembersF] at h
        injection h with h2
        subst h2
        exact ⟨List.Subset.refl _, hdefs, by intro c hc; simp at hc⟩
      | cons m rest =>
        simp only [walkMembersF] at h
        obtain ⟨r0, hr0, hok1⟩ := bindE_eq_ok h
        obtain ⟨rr, hrr, hok2⟩ := bindE_eq_ok hok1
        injection hok2 with h2
        subst h2
        obtain ⟨mono0, defsok0, closed0⟩ := ihW stack defs _ m r0 hr0 hdefs
        obtain ⟨monoR, defsokR, closedR⟩ := ihM stack r0.2 loc (i + 1) rest rr hrr defsok0
        refine ⟨mono0.trans monoR, defsokR, ?_⟩
        intro c hc
        rcases List.mem_cons.mp hc with hc | hc
        · subst hc
          exact (memberContrib_refs closed0 defsok0).mono (ksFor_mono monoR)
        · exact closedR c hc
    · -- walkFieldsF
      intro stack defs loc req props r h hdefs
      cases props with
      | nil =>
        simp only [walkFieldsF] at h
        injection h with h2
        subst h2
        exact ⟨List.Subset.refl _, hdefs, by intro f hf; simp at hf⟩
      | cons p rest =>
        rcases p with ⟨pname, pschema⟩
        simp only [walkFieldsF] at h
        obtain ⟨r0, hr0, hok1⟩ := bindE_eq_ok h
        obtain ⟨rr, hrr, hok2⟩ := bindE_eq_ok hok1
        injection hok2 with h2
        subst h2
        obtain ⟨mono0, defsok0, closed0⟩ := ihW stack defs _ pschema r0 hr0 hdefs
        obtain ⟨monoR, defsokR, closedR⟩ := ihF stack r0.2 loc req rest rr hrr defsok0
        refine ⟨mono0.trans monoR, defsokR, ?_⟩
        intro f hf
        rcases List.mem_cons.mp hf with hf | hf
        · subst hf
          exact (collapseNullable_refs closed0).mono (ksFor_mono monoR)
        · exact closedR f hf
    · -- walkBranchesF
      intro stack defs loc kw i ms r h hdefs
      cases ms with
      | nil =>
        simp only [walkBranchesF] at h
        injection h with h2
        subst h2
        exact ⟨List.Subset.refl _, hdefs, by intro b hb; simp at hb⟩
      | cons m rest =>
        simp only [walkBranchesF] at h
        obtain ⟨r0, hr0, hok1⟩ := bindE_eq_ok h
        obtain ⟨rr, hrr, hok2⟩ := bindE_eq_ok hok1
        injection hok2 with h2
        subst h2
        obtain ⟨mono0, defsok0, closed0⟩ := ihW stack defs _ m r0 hr0 hdefs
        obtain ⟨monoR, defsokR, closedR⟩ := ihB stack r0.2 loc kw (i + 1) rest rr hrr defsok0
        refine ⟨mono0.trans monoR, defsokR, ?_⟩
        intro b hb
        rcases List.mem_cons.mp hb with hb | hb
        · subst hb
          exact closed0.mono (ksFor_mono monoR)
        · exact closedR b hb

/-- The definition-entry sweep keeps the table closed. -/
theorem walkDefsF_refs (doc : Json) (rootName : String) (fuel : Nat) (kw : String) :
    ∀ (entries : List (String × Json)) (defs defs' : Defs),
      walkDefsF doc rootName fuel kw defs entries = .ok defs' →
      DefsOk (keysOf defs) defs →
      keysOf defs ⊆ keysOf defs' ∧ DefsOk (keysOf defs') defs' := by
  intro entries
  induction entries with
  | nil =>
    intro defs defs' h hdefs
    simp only [walkDefsF] at h
    injection h with h2
    subst h2
    exact ⟨List.Subset.refl _, hdefs⟩
  | cons e rest ih =>
    intro defs defs' h hdefs
    rcases e with ⟨k, v⟩
    simp only [walkDefsF] at h
    split at h
    · exact ih defs defs' h hdefs
    · obtain ⟨r0, hr0, hrest⟩ := bindE_eq_ok h
      have hpre : DefsOk (ksFor rootName defs [[kw, k]]) defs := by
        apply hdefs.widen
        intro x hx
        simp only [ksFor, List.mem_append]
        exact Or.inl hx
      obtain ⟨mono0, defsok0, closed0⟩ :=
        (walk_refs doc rootName fuel).1 [[kw, k]] defs (ptrToString [kw, k]) v r0 hr0 hpre
      have hshuffle : ksFor rootName r0.2 [[kw, k]] ⊆
          keysOf ((synthesizedName rootName [kw, k], r0.1) :: r0.2) := by
        intro x hx
        simp only [ksFor, keysOf, List.map_cons, List.map_nil, List.mem_append,
          List.mem_cons, List.mem_singleton, List.not_mem_nil, or_false] at hx ⊢
        tauto
      have hdefs2 : DefsOk (keysOf ((synthesizedName rootName [kw, k], r0.1) :: r0.2))
          ((synthesizedName rootName [kw, k], r0.1) :: r0.2) := by
        intro e2 he2
        rcases List.mem_cons.mp he2 with he2 | he2
        · subst he2
          exact closed0.mono hshuffle
        · exact (defsok0 e2 he2).mono hshuffle
      obtain ⟨monoR, defsokR⟩ := ih _ defs' hrest hdefs2
      constructor
      · intro x hx
        apply monoR
        simp only [keysOf, List.map_cons, List.mem_cons]
        exact Or.inr (mono0 hx)
      · exact defsokR

/-- C7 core: a returned graph's definition table is closed, and so is the
root descriptor — every named reference resolves to a table key. -/
theorem process_refs (doc : Json) (rootName : String) (g : TypeGraph)
    (h : process doc rootName = .ok g) :
    (∀ e ∈ g.definitions, RefsClosed (keysOf g.definitions) e.2) ∧
    RefsClosed (keysOf g.definitions) g.root := by
  unfold process processF at h
  obtain ⟨r0, hr0, h2⟩ := bindE_eq_ok h
  obtain ⟨defs3, hd3, h3⟩ := bindE_eq_ok h2
  obtain ⟨defs4, hd4, h4⟩ := bindE_eq_ok h3
  injection h4 with h5
  subst h5
  have hpre : DefsOk (ksFor rootName [] [[]]) ([] : Defs) := by
    intro e he
    simp at he
  obtain ⟨mono0, defsok0, closed0⟩ :=
    (walk_refs doc rootName (fuelBound doc)).1 [[]] [] "#" doc r0 hr0 hpre
  have hshuffle : ksFor rootName r0.2 [[]] ⊆ keysOf ((rootName, r0.1) :: r0.2) := by
    intro x hx
    simp only [ksFor, keysOf, List.map_cons, List.map_nil, List.mem_append,
      List.mem_cons, List.mem_singleton, List.not_mem_nil, or_false,
      synthesizedName] at hx ⊢
    tauto
  have hdefs2 : DefsOk (keysOf ((rootName, r0.1) :: r0.2)) ((rootName, r0.1) :: r0.2) := by
    intro e2 he2
    rcases List.mem_cons.mp he2 with he2 | he2
    · subst he2
      exact closed0.mono hshuffle
    · exact (defsok0 e2 he2).mono hshuffle
  obtain ⟨mono3, defsok3⟩ :=
    walkDefsF_refs doc rootName (fuelBound doc) "definitions" _ _ defs3 hd3 hdefs2
  obtain ⟨mono4, defsok4⟩ :=
    walkDefsF_refs doc rootName (fuelBound doc) "$defs" _ _ defs4 hd4 defsok3
  refine ⟨defsok4, ?_⟩
  exact closed0.mono (hshuffle.trans (mono3.trans mono4))

/-- Claim instance: a conflicting `allOf` nested inside a property. -/
def nestedConflictDoc : Json :=
  .obj [("type", .str "object"), ("properties", .obj [("x", conflictAllOfDoc)])]

/-- C1: every self-referential schema (a top-level ref to the root, a
`definitions` entry referencing itself directly, or transitively through
another entry) is processed to a finite definition table whose cycle is a
`namedRef` indirection; and `process` never exhausts its fuel on any
document, so the walk always terminates with a result or a genuine
resolution error rather than unbounded recursion. -/
theorem selfReferential_process_terminates_with_namedRef_cycle :
    (∀ (doc : Json) (rootName : String), process doc rootName ≠ .error .outOfFuel) ∧
    (∀ rootName : String, process topSelfRefDoc rootName =
      .ok ⟨[(rootName, .namedRef rootName)], .namedRef rootName, rootName⟩) ∧
    process selfRefDefsDoc "Root" =
      .ok ⟨[("Node", .namedRef "Node"), ("Root", .primitive .any {})],
           .primitive .any {}, "Root"⟩ ∧
    process transCycleDoc "Root" =
      .ok ⟨[("A", .namedRef "B"), ("B", .namedRef "A"), ("Root", .primitive .any {})],
           .primitive .any {}, "Root"⟩ :=
  ⟨process_no_out, fun _ => by rfl, by rfl, by rfl⟩

/-- Witness for C1 at a concrete self-referential document. -/
theorem selfReferential_process_terminates_witness :
    process selfRefDefsDoc "Root" ≠ .error .outOfFuel :=
  selfReferential_process_terminates_with_namedRef_cycle.1 selfRefDefsDoc "Root"

/-- C2: merging `allOf` members that assign different values to a
single-valued constraint — `type` or `format` — raises `schemaConflict`
identifying both contributing JSON-pointer locations, never silently
picking one: shown generically for differing primitive kinds, for the
`format` keyword combinator, for two same-kind primitives carrying
different formats, and end-to-end for both a type conflict and a format
conflict reporting the two member locations. -/
theorem allOf_type_conflict_reported_at_both_locations :
    (∀ (fuel : Nat) (l1 l2 : String) (k1 k2 : PrimKind) (c1 c2 : Constraints),
      k1 ≠ .any → k2 ≠ .any → k1 ≠ k2 →
      mergeDescF (fuel + 1) l1 l2 (.primitive k1 c1) (.primitive k2 c2) =
        .error (.schemaConflict "type" l1 l2)) ∧
    (∀ (l1 l2 a b : String), a ≠ b →
      mergeSingleS "format" l1 l2 (some a) (some b) =
        .error (.schemaConflict "format" l1 l2)) ∧
    (∀ (fuel : Nat) (l1 l2 : String) (k : PrimKind) (c1 c2 : Constraints) (a b : String),
      c1.format = some a → c2.format = some b → a ≠ b →
      mergeDescF (fuel + 1) l1 l2 (.primitive k c1) (.primitive k c2) =
        .error (.schemaConflict "format" l1 l2)) ∧
    process conflictAllOfDoc "Root" =
      .error (.schemaConflict "type" "#/allOf/0" "#/allOf/1") ∧
    process formatConflictDoc "Root" =
      .error (.schemaConflict "format" "#/allOf/0" "#/allOf/1") := by
  refine ⟨?_, ?_, ?_, by rfl, by rfl⟩
  · intro fuel l1 l2 k1 k2 c1 c2 h1 h2 h3
    simp [mergeDescF, h1, h2, h3]
  · intro l1 l2 a b h
    simp [mergeSingleS, h]
  · intro fuel l1 l2 k c1 c2 a b h1 h2 h3
    simp [mergeDescF, mergeCons, h1, h2, mergeSingleS, h3]

/-- Witness for C2 at concrete kinds, formats and locations. -/
theorem allOf_type_conflict_witness :
    mergeDescF 1 "#/allOf/0" "#/allOf/1" (.primitive .string {}) (.primitive .integer {}) =
      .error (.schemaConflict "type" "#/allOf/0" "#/allOf/1") ∧
    mergeDescF 1 "#/allOf/0" "#/allOf/1"
        (.primitive .string { format := some "email" })
        (.primitive .string { format := some "uri" }) =
      .error (.schemaConflict "format" "#/allOf/0" "#/allOf/1") :=
  ⟨allOf_type_conflict_reported_at_both_locations.1 0 "#/allOf/0" "#/allOf/1"
      .string .integer {} {} (by decide) (by decide) (by decide),
   allOf_type_conflict_reported_at_both_locations.2.2.1 0 "#/allOf/0" "#/allOf/1"
      .string { format := some "email" } { format := some "uri" } "email" "uri"
      (by rfl) (by rfl) (by decide)⟩

/-- C3: the `allOf` constraint merge takes the tightest bound — the
maximum of minimums and the minimum of maximums for every range pair —
and the spec's example merges to a single string primitive carrying
`minLength 3` and `maxLength 10`. -/
theorem allOf_range_constraints_take_tightest_bound :
    (∀ (l1 l2 : String) (c1 c2 c : Constraints), mergeCons l1 l2 c1 c2 = .ok c →
      c.minLength = optMaxN c1.minLength c2.minLength ∧
      c.maxLength = optMinN c1.maxLength c2.maxLength ∧
      c.minimum = optMaxI c1.minimum c2.minimum ∧
      c.maximum = optMinI c1.maximum c2.maximum) ∧
    (∀ a b : Nat, optMaxN (some a) (some b) = some (max a b)) ∧
    (∀ a b : Nat, optMinN (some a) (some b) = some (min a b)) ∧
    process tightBoundsDoc "Root" =
      .ok ⟨[("Root", .primitive .string { minLength := some 3, maxLength := some 10 })],
           .primitive .string { minLength := some 3, maxLength := some 10 }, "Root"⟩ := by
  refine ⟨?_, fun a b => rfl, fun a b => rfl, by rfl⟩
  intro l1 l2 c1 c2 c h
  unfold mergeCons at h
  obtain ⟨fmt, hf, h2⟩ := bindE_eq_ok h
  obtain ⟨pat, hp, h3⟩ := bindE_eq_ok h2
  injection h3 with h4
  subst h4
  exact ⟨rfl, rfl, rfl, rfl⟩

/-- Witness for C3 at the spec's example constraints. -/
theorem allOf_range_constraints_witness :
    ({ minLength := some 3, maxLength := some 10 } : Constraints).minLength =
        optMaxN (some 3) none ∧
      ({ minLength := some 3, maxLength := some 10 } : Constraints).maxLength =
        optMinN none (some 10) ∧
      ({ minLength := some 3, maxLength := some 10 } : Constraints).minimum =
        optMaxI none none ∧
      ({ minLength := some 3, maxLength := some 10 } : Constraints).maximum =
        optMinI none none :=
  allOf_range_constraints_take_tightest_bound.1 "x" "y"
    { minLength := some 3 } { maxLength := some 10 }
    { minLength := some 3, maxLength := some 10 } (by rfl)

/-- C4: a union whose branches are exactly one `null` primitive plus
non-null content collapses to the non-null descriptor with the optional
marker set, and the spec's example property becomes an optional string
field rather than a two-branch union. -/
theorem anyOf_single_null_collapses_to_optional_field :
    (∀ (b : TypeDescriptor) (c : Constraints), isNullPrim b = false →
      collapseNullable (.unionType [b, .primitive .null c]) = (b, true) ∧
      collapseNullable (.unionType [.primitive .null c, b]) = (b, true)) ∧
    process nullableFieldDoc "Root" =
      .ok ⟨[("Root", .objectType [("name", false, true, .primitive .string {})] true)],
           .objectType [("name", false, true, .primitive .string {})] true, "Root"⟩ := by
  constructor
  · intro b c hb
    have hnull : ∀ cs : Constraints, isNullPrim (.primitive .null cs) = true := fun _ => rfl
    constructor <;>
      simp [collapseNullable, List.filter_cons, hb, hnull]
  · rfl

/-- Witness for C4 at a concrete string branch. -/
theorem anyOf_single_null_collapse_witness :
    collapseNullable (.unionType [.primitive .string {}, .primitive .null {}]) =
      (.primitive .string {}, true) :=
  (anyOf_single_null_collapses_to_optional_field.1 (.primitive .string {}) {} (by rfl)).1

/-- C5: a local `$ref` whose pointer fails to resolve — a missing segment
or a segment into a non-addressable scalar — raises `brokenReference`
naming the offending path, as in the walk-level rule and the two
end-to-end examples. -/
theorem broken_local_ref_raises_brokenReference :
    (∀ (doc : Json) (rootName : String) (fuel : Nat) (stack : List Ptr) (defs : Defs)
       (loc : String) (fields : List (String × Json)) (r : String) (p : Ptr),
      refOf fields = some r →
      parseRef r = .localPtr p →
      resolvePointer doc p = none →
      walkF doc rootName (fuel + 1) stack defs loc (.obj fields) =
        .error (.brokenReference (ptrToString p))) ∧
    process brokenRefDoc "Root" = .error (.brokenReference "#/definitions/Missing") ∧
    process scalarRefDoc "Root" = .error (.brokenReference "#/definitions/A/x") := by
  refine ⟨?_, by rfl, by rfl⟩
  intro doc rootName fuel stack defs loc fields r p h1 h2 h3
  simp [walkF, h1, h2, h3]

/-- Witness for C5 at the spec's broken-reference example. -/
theorem broken_local_ref_witness :
    walkF brokenRefDoc "Root" 1 [] [] "#" (.obj [("$ref", .str "#/definitions/Missing")]) =
      .error (.brokenReference "#/definitions/Missing") :=
  broken_local_ref_raises_brokenReference.1 brokenRefDoc "Root" 0 [] [] "#"
    [("$ref", .str "#/definitions/Missing")] "#/definitions/Missing"
    ["definitions", "Missing"] (by rfl) (by rfl) (by rfl)

/-- C6: any resolution error raised during the walk aborts the whole
`process` call with that first error — no partial graph is returned and no
fallback occurs — shown by generic propagation from the root walk, by the
impossibility of an `ok` result alongside an error, and by end-to-end
instances of all three error kinds surfacing from nested locations with
the first one in walk order winning. -/
theorem resolution_error_aborts_process_without_partial_graph :
    (∀ (doc : Json) (rootName : String) (e : GenError),
      walkF doc rootName (fuelBound doc) [[]] [] "#" doc = .error e →
      process doc rootName = .error e) ∧
    (∀ (doc : Json) (rootName : String) (e : GenError) (g : TypeGraph),
      process doc rootName = .error e → process doc rootName ≠ .ok g) ∧
    process twoBrokenRefsDoc "Root" = .error (.brokenReference "#/definitions/M1") ∧
    process mixedEnumDoc "Root" = .error (.ambiguousEnumType "#/properties/x") ∧
    process nestedConflictDoc "Root" =
      .error (.schemaConflict "type" "#/properties/x/allOf/0" "#/properties/x/allOf/1") := by
  refine ⟨?_, ?_, by rfl, by rfl, by rfl⟩
  · intro doc rootName e h
    simp [process, processF, h]
  · intro doc rootName e g h
    simp [h]

/-- Witness for C6 at the broken-reference document. -/
theorem resolution_error_aborts_witness :
    process brokenRefDoc "Root" = .error (.brokenReference "#/definitions/Missing") :=
  resolution_error_aborts_process_without_partial_graph.1 brokenRefDoc "Root"
    (.brokenReference "#/definitions/Missing") (by rfl)

/-- C7: every `namedRef` occurring in any descriptor of a returned
`TypeGraph` — in the definition table and in the root — resolves to a key
present in the definition-name-to-descriptor mapping; inline descriptors
are finite trees by construction, so cycles exist only through this
indirection. -/
theorem typeGraph_namedRefs_resolve_in_definition_table :
    ∀ (doc : Json) (rootName : String) (g : TypeGraph),
      process doc rootName = .ok g →
      (∀ e ∈ g.definitions, RefsClosed (keysOf g.definitions) e.2) ∧
      RefsClosed (keysOf g.definitions) g.root :=
  fun doc rootName g h => process_refs doc rootName g h

/-- Witness for C7 at the transitive-cycle document. -/
theorem typeGraph_namedRefs_witness :
    RefsClosed
      (keysOf [("A", .namedRef "B"), ("B", .namedRef "A"), ("Root", .primitive .any {})])
      (.primitive .any {}) :=
  (typeGraph_namedRefs_resolve_in_definition_table transCycleDoc "Root"
    ⟨[("A", .namedRef "B"), ("B", .namedRef "A"), ("Root", .primitive .any {})],
     .primitive .any {}, "Root"⟩ (by rfl)).2

/-- C8: `process` is deterministic — two runs on the same document and
root name yield the same graph, with identical definition names and
descriptor shapes and a byte-identical serialized form. -/
theorem process_rerun_deterministic_byte_identical :
    ∀ (doc : Json) (rootName : String) (g1 g2 : TypeGraph),
      process doc rootName = .ok g1 → process doc rootName = .ok g2 →
      g1 = g2 ∧ serializeGraph g1 = serializeGraph g2 := by
  intro doc rootName g1 g2 h1 h2
  rw [h1] at h2
  cases h2
  exact ⟨rfl, rfl⟩

/-- Witness for C8 at the top-level self-reference document. -/
theorem process_rerun_deterministic_witness :
    (⟨[("Root", .namedRef "Root")], .namedRef "Root", "Root"⟩ : TypeGraph) =
      ⟨[("Root", .namedRef "Root")], .namedRef "Root", "Root"⟩ ∧
    serializeGraph ⟨[("Root", .namedRef "Root")], .namedRef "Root", "Root"⟩ =
      serializeGraph ⟨[("Root", .namedRef "Root")], .namedRef "Root", "Root"⟩ :=
  process_rerun_deterministic_byte_identical topSelfRefDoc "Root" _ _ (by rfl) (by rfl)

/-- C9: in the CLI `samples` command, both arms of the `count == 1`
conditional serialize the samples identically, so the output is the same
function of the samples for every count. -/
theorem cli_samples_output_same_for_all_counts :
    ∀ (dumps : Json → String) (count : Int) (samples : Json),
      cmd_generate_samples_output dumps count samples = dumps samples ∧
      cmd_generate_samples_output dumps count samples =
        cmd_generate_samples_output dumps 1 samples := by
  intro dumps count samples
  simp [cmd_generate_samples_output]

/-- C10: the CLI `validate` command exits with code 0 exactly when the
selected validation result's `is_valid` flag is true — whether validating
data against the schema or the schema itself — and with code 1 otherwise. -/
theorem cli_validate_exit_zero_iff_is_valid :
    ∀ (dataArg : Bool) (dataResult schemaResult : ValidationResult),
      (cmd_validate_exit dataArg dataResult schemaResult = 0 ↔
        (if dataArg then dataResult else schemaResult).is_valid = true) ∧
      (cmd_validate_exit dataArg dataResult schemaResult = 1 ↔
        (if dataArg then dataResult else schemaResult).is_valid = false) := by
  intro d dr sr
  rcases dr with ⟨dv, di⟩
  rcases sr with ⟨sv, si⟩
  cases d <;> cases dv <;> cases sv <;> simp [cmd_validate_exit]
